import Mathlib

/-
Verification development for the studybot repository (src/app.py and
src/study_bot.py).  The Python functions named in the claims are embedded
shallowly below; each Lean definition carries the name of the Python
function it translates and mirrors its control flow.  Python dicts that
hold the knowledge partitions are modelled as association lists
(`List (String × Entry)`, keys unique in every real run, iteration in
insertion order, like a Python dict).  Python floats only ever hold exact
small fractions in this code (0.05-grid values and ratios 2*M/T of small
integers), and are only compared; they are modelled by the exact fraction
type `Q` below, whose order agrees with the float order at every
comparison the code performs.
-/

namespace StudyBot

/-! ## Exact fractions standing in for Python floats.
`Q` is an unnormalised fraction `num / (den1 + 1)`; the denominator is
positive by construction.  `qOf n d` (for `d ≥ 1`) is the literal `n/d`. -/

structure Q where
  num : Nat
  den1 : Nat
deriving DecidableEq

def Q.den (q : Q) : Nat := q.den1 + 1

def qOf (n d : Nat) : Q := ⟨n, d - 1⟩

def qLe (a b : Q) : Bool := decide (a.num * b.den ≤ b.num * a.den)

def qLt (a b : Q) : Bool := decide (a.num * b.den < b.num * a.den)

def qEqB (a b : Q) : Bool := decide (a.num * b.den = b.num * a.den)

/-- Value equality of two fractions (what `==` on the Python floats tests). -/
def Q.Eqv (a b : Q) : Prop := a.num * b.den = b.num * a.den

def qAdd (a b : Q) : Q := ⟨a.num * b.den + b.num * a.den, a.den * b.den - 1⟩

def qMul (a b : Q) : Q := ⟨a.num * b.num, a.den * b.den - 1⟩

def qDiv (a b : Q) : Q := ⟨a.num * b.den, a.den * b.num - 1⟩

/-- Python `max(a, b)`: returns `b` exactly when `a < b`. -/
def qMax (a b : Q) : Q := if qLt a b then b else a

/-! ## Characters and strings, Python style -/

/-- The whitespace characters Python `str.strip` / `str.split()` / `\s`
remove for the ASCII text this bot handles. -/
def pyWS (c : Char) : Bool :=
  c = ' ' || c = '\t' || c = '\n' || c = '\r' || c = '\x0b' || c = '\x0c'

/-- Python `str.lower` on the ASCII range (the only case mapping this
repository's data exercises). -/
def lowerCh (c : Char) : Char :=
  if 65 ≤ c.toNat ∧ c.toNat ≤ 90 then Char.ofNat (c.toNat + 32) else c

def lowerL (cs : List Char) : List Char := cs.map lowerCh

def ltrimWS (cs : List Char) : List Char := cs.dropWhile pyWS

def rtrimWS (cs : List Char) : List Char := (cs.reverse.dropWhile pyWS).reverse

/-- Python `str.strip()` (no argument): whitespace removed at both ends. -/
def pyStrip (cs : List Char) : List Char := rtrimWS (ltrimWS cs)

/-- Model of `normalize_term` (src/app.py lines 77-79, src/study_bot.py lines 323-325):
`term.lower().strip()`. -/
def normalize_term (t : String) : String := ⟨pyStrip (lowerL t.data)⟩

/-- Split `cs` at the first occurrence of `sep`, returning the parts before
and after it; `none` when `sep` does not occur.  `(splitOnceAux sep cs).isSome`
is Python's `sep in cs`, and the parts are `cs.split(sep, 1)`. -/
def splitOnceAux (sep : List Char) : List Char → Option (List Char × List Char)
  | [] => if sep.isEmpty then some ([], []) else none
  | c :: cs =>
    if sep.isPrefixOf (c :: cs) then some ([], (c :: cs).drop sep.length)
    else
      match splitOnceAux sep cs with
      | some (l, r) => some (c :: l, r)
      | none => none

def strInL (needle hay : List Char) : Bool := (splitOnceAux needle hay).isSome

/-- Python `needle in hay` on strings (substring containment). -/
def strIn (needle hay : String) : Bool := strInL needle.data hay.data

/-- Python `text.split()` (split on whitespace runs, dropping empties),
via fuel on the list length. -/
def splitWSAux : Nat → List Char → List (List Char)
  | 0, _ => []
  | _ + 1, [] => []
  | fuel + 1, c :: cs =>
    if pyWS c then splitWSAux fuel cs
    else
      let w := (c :: cs).takeWhile (fun x => !pyWS x)
      w :: splitWSAux fuel ((c :: cs).drop w.length)

def splitWS (s : String) : List String :=
  (splitWSAux s.data.length s.data).map (fun w => ⟨w⟩)

/-! ## The stored records.
One value of a knowledge-partition dict: the union of the JSON fields any
of the two bot revisions reads or writes.  A field the JSON object lacks
is `none` (for the list fields the code defaults to `[]`, so absent and
empty coincide and a plain list suffices). -/

structure Entry where
  original_term : Option String
  definition : Option String
  content : Option String
  content_type : Option String
  keywords : List String
  subtopics : List String
  search_terms : List String
  added : Option String
  channel : Option String
  related : List String
deriving DecidableEq

/-- An entry with every optional field absent, used as concrete test data. -/
def entry0 : Entry := ⟨none, none, none, none, [], [], [], none, none, []⟩

/-! ## Files and persistence (claims C5 and C8) -/

/-- Model of `get_knowledge_file` (src/app.py lines 41-45, src/study_bot.py lines
288-292): `str(Path("knowledge_bases") / f"knowledge_{abs(channel_id)}.json")`.
The `mkdir` side effect does not influence the returned path. -/
def get_knowledge_file (channel_id : Int) : String :=
  "knowledge_bases/knowledge_" ++ toString channel_id.natAbs ++ ".json"

/-- The filename `load_knowledge`/`save_knowledge` use: the default file
for `channel_id = None`, the per-channel file otherwise. -/
def knowledgeFilename (channel_id : Option Int) : String :=
  match channel_id with
  | none => "knowledge_base.json"
  | some c => get_knowledge_file c

/-- Model of `load_knowledge` (src/app.py lines 47-62, src/study_bot.py lines
294-308).  The filesystem is modelled by `fs` (`none` = the file is absent,
raising `FileNotFoundError`), and the standard-library `json.load` by
`parseJson` (`Except.error` = any decode exception).  Both `except` arms
return the empty mapping, after logging. -/
def load_knowledge (fs : String → Option String)
    (parseJson : String → Except String (List (String × Entry)))
    (channel_id : Option Int) : List (String × Entry) :=
  match fs (knowledgeFilename channel_id) with
  | none => []
  | some content =>
    match parseJson content with
    | Except.ok d => d
    | Except.error _ => []

/-! ## Deleting a term (claim C6) -/

/-- Python `del knowledge[term_norm]` on the association-list model. -/
def eraseKey (k : String) (kb : List (String × Entry)) :
    List (String × Entry) :=
  kb.filter (fun p => p.1 != k)

/-- The full effect of one `/delete` run: the final mappings, the
`deleted_from` name list (empty means the not-found reply is sent) and the
`save_knowledge` calls that were made, in order (`none` = default file). -/
structure DeleteOutcome where
  manualKB : List (String × Entry)
  channelKBs : List (Int × List (String × Entry))
  deletedFrom : List String
  saves : List (Option Int)
deriving DecidableEq

/-- One iteration of the per-channel loop of `delete_term`. -/
def deleteStep (tn : String) (st : DeleteOutcome)
    (c : Int × List (String × Entry)) : DeleteOutcome :=
  match c.2.lookup tn with
  | some e =>
    ⟨st.manualKB, st.channelKBs ++ [(c.1, eraseKey tn c.2)],
      st.deletedFrom ++ [e.channel.getD ("Channel " ++ toString c.1)],
      st.saves ++ [some c.1]⟩
  | none => ⟨st.manualKB, st.channelKBs ++ [c], st.deletedFrom, st.saves⟩

/-- Model of `delete_term` (src/app.py lines 460-506; the same logic runs in the
`awaiting_delete` branch of `handle_message`, src/study_bot.py lines
907-948): normalize the term, delete it from the default partition and
from every channel partition where present, saving each modified file. -/
def delete_term (term : String) (manualKB : List (String × Entry))
    (channelKBs : List (Int × List (String × Entry))) : DeleteOutcome :=
  channelKBs.foldl (deleteStep (normalize_term term))
    (match manualKB.lookup (normalize_term term) with
      | some _ =>
        ⟨eraseKey (normalize_term term) manualKB, [], ["Manual"], [none]⟩
      | none => ⟨manualKB, [], [], []⟩)

/-! ## The term/definition parser (claim C3) -/

/-- Lazy search for the two-character closing delimiter `d d` used by the
regex `\*\*(.+?)\*\*` (and its `__` twin): returns the inner text up to the
earliest closing pair and the remainder after it.  `none` when no closing
pair occurs before a newline (`.` does not match `\n`) or the end. -/
def closeScan (d : Char) : List Char → Option (List Char × List Char)
  | x :: y :: rest =>
    if x = d ∧ y = d then some ([], rest)
    else if x = '\n' then none
    else
      match closeScan d (y :: rest) with
      | some (i, a) => some (x :: i, a)
      | none => none
  | _ => none

/-- The `(.+?)\x2a\x2a` part of the pattern after an opening pair: at least
one non-newline character, then the earliest closing pair. -/
def findClose (d : Char) : List Char → Option (List Char × List Char)
  | [] => none
  | c :: rest =>
    if c = '\n' then none
    else
      match closeScan d rest with
      | some (i, a) => some (c :: i, a)
      | none => none

/-- One `re.sub(r'\*\*(.+?)\*\*', r'\1', ...)` pass (with `d = '*'`; the
`__` pass uses `d = '_'`): scan left to right, replace each
non-overlapping match by its inner text, move one character on failure.
`fuel` only bounds the recursion; `fuel = cs.length` always suffices. -/
def subPairAux (d : Char) : Nat → List Char → List Char
  | 0, cs => cs
  | _ + 1, [] => []
  | fuel + 1, c1 :: rest =>
    if c1 = d ∧ rest.head? = some d then
      match findClose d rest.tail with
      | some (inner, after) => inner ++ subPairAux d fuel after
      | none => c1 :: subPairAux d fuel rest
    else c1 :: subPairAux d fuel rest

/-- The markdown pre-pass of both `extract_definition` functions:
`re.sub(r'\*\*(.+?)\*\*', r'\1', text)` then `re.sub(r'__(.+?)__', r'\1', ·)`. -/
def stripMarkdown (cs : List Char) : List Char :=
  subPairAux '_' (subPairAux '*' cs.length cs).length (subPairAux '*' cs.length cs)

/-- The ordered separator list of `extract_definition` and
`detect_content_type`: `' - '`, `': '`, `' = '`, en dash, em dash. -/
def separators : List String := [" - ", ": ", " = ", " – ", " — "]

/-- The separator loop of `extract_definition` (src/app.py lines 93-105):
for each separator in order, if it occurs, split once at its first
occurrence; return the stripped sides when both are non-empty, otherwise
try the next separator. -/
def scanSepsA : List String → List Char → Option (String × String)
  | [], _ => none
  | sep :: rest, t =>
    match splitOnceAux sep.data t with
    | some (l, r) =>
      if pyStrip l ≠ [] ∧ pyStrip r ≠ [] then some (⟨pyStrip l⟩, ⟨pyStrip r⟩)
      else scanSepsA rest t
    | none => scanSepsA rest t

/-- Model of `extract_definition` (src/app.py lines 81-105).  `none` models the
`(None, None)` return. -/
def extract_definition (text : String) : Option (String × String) :=
  scanSepsA separators (stripMarkdown text.data)

/-- The definition side of study_bot's `extract_definition`: the original
text after its first separator occurrence when the separator occurs there
(`original_text.find(sep)`), else the right part of the stripped split;
stripped either way. -/
def defnPartB (orig : List Char) (sep : String) (r : List Char) : List Char :=
  match splitOnceAux sep.data orig with
  | some (_, ro) => pyStrip ro
  | none => pyStrip r

/-- The separator loop of study_bot's `extract_definition` (src/study_bot.py
lines 336-354): the term comes from the markdown-stripped text, the
definition from `defnPartB`. -/
def scanSepsB : List String → List Char → List Char → Option (String × String)
  | [], _, _ => none
  | sep :: rest, orig, clean =>
    match splitOnceAux sep.data clean with
    | some (l, r) =>
      if pyStrip l ≠ [] ∧ defnPartB orig sep r ≠ [] then
        some (⟨pyStrip l⟩, ⟨defnPartB orig sep r⟩)
      else scanSepsB rest orig clean
    | none => scanSepsB rest orig clean

/-- Model of `extract_definition` (src/study_bot.py lines 327-354).  The unused
`entities` passthrough (always `None` in the claims' scope) is omitted;
`none` models the `(None, None, None)` return. -/
def extract_definition_sb (text : String) : Option (String × String) :=
  scanSepsB separators text.data (stripMarkdown text.data)

/-- The spec-side predicate: this separator's first-occurrence split of
`cs` has two non-empty stripped sides. -/
def goodSepA (cs : List Char) (sep : String) : Bool :=
  match splitOnceAux sep.data cs with
  | some (l, r) => !(pyStrip l).isEmpty && !(pyStrip r).isEmpty
  | none => false

/-- The spec-side description of the app.py parser: the stripped sides of
the first-occurrence split at the first separator (in list order) whose
split has two non-empty stripped sides. -/
def firstGoodSplitA (cs : List Char) : Option (String × String) :=
  (separators.find? (goodSepA cs)).bind (fun sep =>
    (splitOnceAux sep.data cs).map
      (fun p => (⟨pyStrip p.1⟩, ⟨pyStrip p.2⟩)))

def goodSepB (orig clean : List Char) (sep : String) : Bool :=
  match splitOnceAux sep.data clean with
  | some (l, r) => !(pyStrip l).isEmpty && !(defnPartB orig sep r).isEmpty
  | none => false

def firstGoodSplitB (orig clean : List Char) : Option (String × String) :=
  ((separators.find? (goodSepB orig clean)).bind (fun sep =>
    (splitOnceAux sep.data clean).map
      (fun p => (⟨pyStrip p.1⟩, ⟨defnPartB orig sep p.2⟩))))

/-- A line start matching `^\d+\.\s+`: one or more digits, a dot, then a
whitespace character. -/
def lineStartNum (cs : List Char) : Bool :=
  !(cs.takeWhile Char.isDigit).isEmpty &&
    (match cs.drop (cs.takeWhile Char.isDigit).length with
     | '.' :: c :: _ => pyWS c
     | _ => false)

/-- A line start matching the bullet pattern of `detect_content_type`:
one of the three bullet characters then a whitespace character. -/
def lineStartBullet (cs : List Char) : Bool :=
  match cs with
  | b :: c :: _ => (b = '•' || b = '-' || b = '*') && pyWS c
  | _ => false

def anyLineStartAux (p : List Char → Bool) : List Char → Bool
  | [] => false
  | c :: rest => ((c = '\n') && p rest) || anyLineStartAux p rest

/-- Model of `re.search(pattern, text, re.MULTILINE)` for a `^`-anchored pattern:
the pattern must match at the start of the text or right after a newline. -/
def anyLineStart (p : List Char → Bool) (cs : List Char) : Bool :=
  p cs || anyLineStartAux p cs

/-- The `content_type` component of `detect_content_type` (src/study_bot.py
lines 89-131).  The `main_topic`/`subtopics` components do not influence
the returned type and are not needed by any claim, so only the type
computation is embedded: `is_definition` is "some separator occurs and
`len(text.split('\n')) <= 2`"; otherwise numbered/bulleted lines give
"list", more than 500 characters "long_form", else "note". -/
def detect_content_type_tag (text : String) : String :=
  if separators.any (fun sep => strInL sep.data text.data)
      && decide (text.data.countP (fun c => c = '\n') + 1 ≤ 2) then "definition"
  else if anyLineStart lineStartNum text.data
      || anyLineStart lineStartBullet text.data then "list"
  else if decide (500 < text.data.length) then "long_form"
  else "note"

/-! ## The stable descending sort behind `results.sort(key=..., reverse=True)`.
Python's sort is stable; a stable sort is determined up to extensional
equality by its comparison, so the insertion formulation below is
extensionally the Python sort. -/

/-- Stable insertion for descending order: `x` goes in front of the first
element it sorts no lower than (`pge a b` reads "a sorts no lower than b"),
so elements comparing equal keep their input order. -/
def stableInsert (pge : α → α → Bool) (x : α) : List α → List α
  | [] => [x]
  | y :: ys => if pge x y then x :: y :: ys else y :: stableInsert pge x ys

def stableSortDesc (pge : α → α → Bool) : List α → List α
  | [] => []
  | x :: xs => stableInsert pge x (stableSortDesc pge xs)

/-- The comparison of `sort(key=lambda x: score(x), reverse=True)`. -/
def scGe (sc : α → Q) (a b : α) : Bool := qLe (sc b) (sc a)

/-! ## difflib: `SequenceMatcher` ratios and `get_close_matches`.
`get_close_matches(word, possibilities, n=3, cutoff=0.6)` is called with
`a = possibility`, `b = word` and no junk function, so `bjunk` is empty and
only the autojunk "popular" rule can prune `b2j`. -/

def countCh (l : List Char) (c : Char) : Nat := l.count c

/-- The entry `b2j[c]` before autojunk: indices of `c` in `b`, ascending. -/
def idxsOf (b : List Char) (c : Char) : List Nat :=
  (List.range b.length).filter (fun j => b.getD j ' ' = c)

/-- The autojunk rule: for `len(b) >= 200`, characters occurring more than
`len(b) // 100 + 1` times are dropped from `b2j`. -/
def isPopular (b : List Char) (c : Char) : Bool :=
  decide (200 ≤ b.length) && decide (b.length / 100 + 1 < countCh b c)

def b2j (b : List Char) (c : Char) : List Nat :=
  if isPopular b c then [] else idxsOf b c

/-- One outer iteration (one `i`) of the `j2len` dynamic program of
`find_longest_match`: the new row reads only the previous row (at `j-1`)
and the best block is updated on strictly greater length. -/
def flmRow (a b : List Char) (blo bhi : Nat) (i : Nat)
    (st : (Nat → Nat) × (Nat × Nat × Nat)) :
    (Nat → Nat) × (Nat × Nat × Nat) :=
  let js := (b2j b (a.getD i ' ')).filter (fun j => decide (blo ≤ j) && decide (j < bhi))
  let k := fun j => (if j = 0 then 0 else st.1 (j - 1)) + 1
  ((fun j => if j ∈ js then k j else 0),
    js.foldl (fun bst j =>
      if bst.2.2 < k j then (i + 1 - k j, j + 1 - k j, k j) else bst) st.2)

/-- The first (non-junk) extension loop of `find_longest_match`; the junk
set is empty here, so `not isbjunk(...)` always holds and the two junk
extension loops never fire.  `fuel = besti` suffices (each step lowers
`besti` by one, stopping at `alo`). -/
def extFront (a b : List Char) (alo blo : Nat) :
    Nat → Nat → Nat → Nat → Nat × Nat × Nat
  | 0, besti, bestj, bestsize => (besti, bestj, bestsize)
  | fuel + 1, besti, bestj, bestsize =>
    if decide (alo < besti) && decide (blo < bestj)
        && decide (a.getD (besti - 1) ' ' = b.getD (bestj - 1) ' ') then
      extFront a b alo blo fuel (besti - 1) (bestj - 1) (bestsize + 1)
    else (besti, bestj, bestsize)

/-- The second (non-junk) extension loop; `fuel = ahi` suffices. -/
def extBack (a b : List Char) (ahi bhi : Nat) :
    Nat → Nat → Nat → Nat → Nat × Nat × Nat
  | 0, besti, bestj, bestsize => (besti, bestj, bestsize)
  | fuel + 1, besti, bestj, bestsize =>
    if decide (besti + bestsize < ahi) && decide (bestj + bestsize < bhi)
        && decide (a.getD (besti + bestsize) ' ' = b.getD (bestj + bestsize) ' ') then
      extBack a b ahi bhi fuel besti bestj (bestsize + 1)
    else (besti, bestj, bestsize)

/-- Model of `SequenceMatcher.find_longest_match(alo, ahi, blo, bhi)`. -/
def findLongestMatch (a b : List Char) (alo ahi blo bhi : Nat) :
    Nat × Nat × Nat :=
  let dp := (List.range' alo (ahi - alo)).foldl
    (fun st i => flmRow a b blo bhi i st) ((fun _ => 0), (alo, blo, 0))
  let e1 := extFront a b alo blo dp.2.1 dp.2.1 dp.2.2.1 dp.2.2.2
  extBack a b ahi bhi e1.1 e1.1 e1.2.1 e1.2.2

/-- The total size of all matching blocks (all `ratio` needs from
`get_matching_blocks`): the longest match, recursively to its left and to
its right: the queue-based loop visits exactly these windows.  A window
shrinks strictly on both recursions, so `fuel = la + lb + 1` suffices. -/
def matchSumAux (a b : List Char) : Nat → Nat → Nat → Nat → Nat → Nat
  | 0, _, _, _, _ => 0
  | fuel + 1, alo, ahi, blo, bhi =>
    let m := findLongestMatch a b alo ahi blo bhi
    if m.2.2 = 0 then 0
    else
      m.2.2
        + (if decide (alo < m.1) && decide (blo < m.2.1) then
            matchSumAux a b fuel alo m.1 blo m.2.1 else 0)
        + (if decide (m.1 + m.2.2 < ahi) && decide (m.2.1 + m.2.2 < bhi) then
            matchSumAux a b fuel (m.1 + m.2.2) ahi (m.2.1 + m.2.2) bhi else 0)

def matchSum (a b : List Char) : Nat :=
  matchSumAux a b (a.length + b.length + 1) 0 a.length 0 b.length

/-- Model of `_calculate_ratio(matches, length)`: `2.0 * matches / length`, and 1.0
when both sequences are empty. -/
def calcRatio (m len : Nat) : Q :=
  if len = 0 then qOf 1 1 else qOf (2 * m) len

def ratioQ (a b : List Char) : Q :=
  calcRatio (matchSum a b) (a.length + b.length)

/-- Model of `quick_ratio`: counts multiset-intersection matches via the `avail`
bookkeeping of the source. -/
def quickMatches (a b : List Char) : Nat :=
  (a.foldl (fun (st : (Char → Option Int) × Nat) elt =>
    let numb : Int :=
      match st.1 elt with
      | some v => v
      | none => (countCh b elt : Int)
    ((fun c => if c = elt then some (numb - 1) else st.1 c),
      if 0 < numb then st.2 + 1 else st.2)) ((fun _ => none), 0)).2

def quickRatioQ (a b : List Char) : Q :=
  calcRatio (quickMatches a b) (a.length + b.length)

def realQuickRatioQ (a b : List Char) : Q :=
  calcRatio (min a.length b.length) (a.length + b.length)

/-- Python string `<` (code-point lexicographic), used by tuple comparison
inside `heapq.nlargest`. -/
def strLtL : List Char → List Char → Bool
  | [], [] => false
  | [], _ :: _ => true
  | _ :: _, [] => false
  | a :: as, b :: bs =>
    if a = b then strLtL as bs else decide (a.toNat < b.toNat)

/-- Python tuple comparison, "sorts no lower", for `(ratio, word)` pairs;
ratio values compare by value like the floats they model. -/
def pairGe (p q : Q × String) : Bool :=
  !(qLt p.1 q.1 || (qEqB p.1 q.1 && strLtL p.2.data q.2.data))

/-- Model of `difflib.get_close_matches(word, possibilities, n, cutoff)`: keep the
possibilities passing the three ratio gates, then `heapq.nlargest(n, ...)`
on `(ratio, word)` — documented equivalent to the stable descending sort
by the pair — and return the words. -/
def getCloseMatches (word : String) (possibilities : List String)
    (n : Nat) (cutoff : Q) : List String :=
  let b := word.data
  let scored := possibilities.foldl (fun acc x =>
    if qLe cutoff (realQuickRatioQ x.data b)
        && qLe cutoff (quickRatioQ x.data b)
        && qLe cutoff (ratioQ x.data b) then
      acc ++ [(ratioQ x.data b, x)]
    else acc) []
  ((stableSortDesc pairGe scored).take n).map (fun p => p.2)

/-! ## `search_knowledge` (src/app.py lines 107-137, claim C1) -/

/-- The exact-match phase: score 1.0, the key is marked seen. -/
def skExact (qn : String) (knowledge : List (String × Entry)) :
    List (String × Entry × Q) × List String :=
  match knowledge.lookup qn with
  | some d => ([(qn, d, qOf 1 1)], [qn])
  | none => ([], [])

/-- One iteration of the substring phase: skip seen keys, score 0.8 when
either string contains the other. -/
def skPartialStep (qn : String) (st : List (String × Entry × Q) × List String)
    (td : String × Entry) : List (String × Entry × Q) × List String :=
  if td.1 ∈ st.2 then st
  else if strIn qn td.1 || strIn td.1 qn then
    (st.1 ++ [(td.1, td.2, qOf 4 5)], st.2 ++ [td.1])
  else st

/-- One iteration of the fuzzy phase: skip seen keys, score 0.6.  The
match always comes from `knowledge`'s keys, so the lookup succeeds. -/
def skFuzzyStep (knowledge : List (String × Entry))
    (st : List (String × Entry × Q) × List String) (m : String) :
    List (String × Entry × Q) × List String :=
  if m ∈ st.2 then st
  else
    match knowledge.lookup m with
    | some d => (st.1 ++ [(m, d, qOf 3 5)], st.2 ++ [m])
    | none => st

/-- Model of `search_knowledge(query, knowledge)`: exact, substring and fuzzy
phases, stable sort by score descending, top five. -/
def search_knowledge (query : String) (knowledge : List (String × Entry)) :
    List (String × Entry × Q) :=
  (stableSortDesc (scGe (fun r => r.2.2))
    ((getCloseMatches (normalize_term query)
        (knowledge.map (fun p => p.1)) 3 (qOf 3 5)).foldl
      (skFuzzyStep knowledge)
      (knowledge.foldl (skPartialStep (normalize_term query))
        (skExact (normalize_term query) knowledge))).1).take 5

/-! ## Cross-partition search (`search_term`, src/app.py lines 238-293,
claim C2).  A result row carries the matched key, its record, the score,
the display source (`"manual"` or the channel name) and the channel id. -/

structure Row where
  term : String
  data : Entry
  score : Q
  src : String
  cid : Int
deriving DecidableEq

/-- Model of the channel display name, `first_term.get("channel", ...)` on the first
entry of a (non-empty) partition. -/
def channelNameOf (cid : Int) (kb : List (String × Entry)) : String :=
  match kb.head? with
  | some p => p.2.channel.getD ("Channel " ++ toString cid)
  | none => "Channel " ++ toString cid

/-- The rows contributed by the default (manual) knowledge base; skipped
when it is empty (`if default_knowledge:`). -/
def manualRowsA (q : String) (dkb : List (String × Entry)) : List Row :=
  if dkb = [] then []
  else (search_knowledge q dkb).map (fun r => ⟨r.1, r.2.1, r.2.2, "manual", 0⟩)

/-- The rows contributed by the channel partitions, in file order; empty
partitions are skipped (`if knowledge:`). -/
def channelRowsA (q : String) (chans : List (Int × List (String × Entry))) :
    List Row :=
  chans.foldr (fun c acc =>
    (if c.2 = [] then []
     else (search_knowledge q c.2).map
       (fun r => ⟨r.1, r.2.1, r.2.2, channelNameOf c.1 c.2, c.1⟩)) ++ acc) []

/-- The list `all_results`: manual rows first, then every channel's rows. -/
def allRowsA (q : String) (dkb : List (String × Entry))
    (chans : List (Int × List (String × Entry))) : List Row :=
  manualRowsA q dkb ++ channelRowsA q chans

/-- The duplicate-removal loop of `search_term`: keep the first row of
each term, stop once `lim` rows are kept. -/
def dedupTakeAux (lim : Nat) : List String → Nat → List Row → List Row
  | _, _, [] => []
  | seen, cnt, r :: rs =>
    if r.term ∈ seen then dedupTakeAux lim seen cnt rs
    else r :: (if lim ≤ cnt + 1 then []
      else dedupTakeAux lim (r.term :: seen) (cnt + 1) rs)

/-- Model of `search_term`'s result assembly: concatenate per-partition results,
stable-sort by score descending, drop duplicate terms keeping the first
occurrence, cap at five. -/
def search_term (q : String) (dkb : List (String × Entry))
    (chans : List (Int × List (String × Entry))) : List Row :=
  dedupTakeAux 5 [] 0
    (stableSortDesc (scGe (fun r : Row => r.score)) (allRowsA q dkb chans))

/-- The predicate "is a `t`-row of maximal score among the `t`-rows of `all`" — the
characterization `sort_find?_max` gives of what duplicate removal keeps. -/
def maxTermPred (all : List Row) (t : String) (x : Row) : Bool :=
  decide (x.term = t) &&
    decide (∀ y ∈ all, decide (y.term = t) = true → qLe y.score x.score = true)

/-- An entry tagged with a channel name, used as concrete test data. -/
def entryChan : Entry :=
  ⟨none, none, none, none, [], [], [], none, some "chan", []⟩

/-! ## `smart_search` (src/study_bot.py lines 167-234, claim C1) -/

/-- The per-entry score of `smart_search`: exact 1.0 / substring 0.9 on
the key, `max`-ed with the keyword tier `0.7 + matches*0.05`, the subtopic
tier 0.75, the search-terms tier 0.7, and — for multi-word queries or
scores below 0.7 — the content tiers 0.6 and `0.5 + hits/words*0.1`. -/
def smartScore (qn : String) (qws : List String) (td : String × Entry) : Q :=
  let s1 : Q :=
    if qn = td.1 then qOf 1 1
    else if strIn qn td.1 || strIn td.1 qn then qMax (qOf 0 1) (qOf 9 10)
    else qOf 0 1
  let km := (td.2.keywords.filter (fun kw => strIn qn kw || strIn kw qn)).length
  let s2 :=
    if 0 < km then qMax s1 (qAdd (qOf 7 10) (qMul (qOf km 1) (qOf 1 20)))
    else s1
  let s3 :=
    if td.2.subtopics.any (fun st' => strInL qn.data (lowerL st'.data)) then
      qMax s2 (qOf 3 4)
    else s2
  let s4 :=
    if td.2.search_terms.any (fun t => strIn qn t) then qMax s3 (qOf 7 10)
    else s3
  let content := lowerL (td.2.content.getD (td.2.definition.getD "")).data
  if 1 < qws.length || qLt s4 (qOf 7 10) then
    let s5 := if strInL qn.data content then qMax s4 (qOf 3 5) else s4
    let wmc := (qws.filter (fun w => strInL w.data content)).length
    if 0 < wmc then
      qMax s5 (qAdd (qOf 1 2)
        (qMul (qDiv (qOf wmc 1) (qOf qws.length 1)) (qOf 1 10)))
    else s5
  else s4

/-- One iteration of the main loop of `smart_search`: skip seen keys,
keep entries with positive score. -/
def ssStep (qn : String) (qws : List String)
    (st : List (String × Entry × Q) × List String) (td : String × Entry) :
    List (String × Entry × Q) × List String :=
  if td.1 ∈ st.2 then st
  else if qLt (qOf 0 1) (smartScore qn qws td) then
    (st.1 ++ [(td.1, td.2, smartScore qn qws td)], st.2 ++ [td.1])
  else st

/-- The fuzzy tail of `smart_search`: unseen close matches get 0.55.  The
`if data:` truthiness test only fails on an empty record, which this bot
never stores, so the lookup result decides. -/
def ssFuzzyStep (knowledge : List (String × Entry))
    (st : List (String × Entry × Q) × List String) (m : String) :
    List (String × Entry × Q) × List String :=
  if m ∈ st.2 then st
  else
    match knowledge.lookup m with
    | some d => (st.1 ++ [(m, d, qOf 11 20)], st.2 ++ [m])
    | none => st

/-- Model of `smart_search(query, knowledge)`: score every entry, add fuzzy
matches, stable sort by score descending, top ten. -/
def smart_search (query : String) (knowledge : List (String × Entry)) :
    List (String × Entry × Q) :=
  (stableSortDesc (scGe (fun r => r.2.2))
    ((getCloseMatches (normalize_term query)
        (knowledge.map (fun p => p.1)) 3 (qOf 3 5)).foldl
      (ssFuzzyStep knowledge)
      (knowledge.foldl
        (ssStep (normalize_term query) (splitWS (normalize_term query)))
        ([], []))).1).take 10

/-- An entry whose seven keywords each contain the letter "e", used to
drive the keyword tier of `smart_search` above 1.0. -/
def entryKw : Entry :=
  ⟨none, none, none, none, ["ea", "eb", "ec", "ed", "ef", "eg", "eh"],
    [], [], none, none, []⟩

/-! ## `escape_markdown` (src/study_bot.py lines 237-285, claim C4) -/

/-- Model of Python `text.replace(pat, rep, 1)`: replace the first occurrence. -/
def replaceFirstL (s pat rep : List Char) : List Char :=
  match splitOnceAux pat s with
  | some (l, r) => l ++ rep ++ r
  | none => s

/-- The matches of `re.finditer(r'```[\s\S]*?```', text)` in scan order:
at an opening triple backtick, the lazy inner part runs to the earliest
closing triple (possibly empty); without a closing triple the scan moves
one character.  `fuel = cs.length` suffices. -/
def scanBlocks : Nat → List Char → List (List Char)
  | 0, _ => []
  | _ + 1, [] => []
  | fuel + 1, c :: rest =>
    if c = '`' ∧ rest.take 2 = ['`', '`'] then
      match splitOnceAux ['`', '`', '`'] (rest.drop 2) with
      | some (inner, after) =>
        (['`', '`', '`'] ++ inner ++ ['`', '`', '`']) :: scanBlocks fuel after
      | none => scanBlocks fuel rest
    else scanBlocks fuel rest

/-- The matches of `re.finditer(r'`[^`\n]+`', text)` in scan order: a
backtick, at least one character that is neither backtick nor newline,
then the closing backtick. -/
def scanInline : Nat → List Char → List (List Char)
  | 0, _ => []
  | _ + 1, [] => []
  | fuel + 1, c :: rest =>
    if c = '`' then
      if !(rest.takeWhile (fun x => !(x = '`') && !(x = '\n'))).isEmpty
          && ((rest.drop
            (rest.takeWhile (fun x => !(x = '`') && !(x = '\n'))).length).head?
              = some '`') then
        ('`' :: (rest.takeWhile (fun x => !(x = '`') && !(x = '\n')) ++ ['`']))
          :: scanInline fuel
            (rest.drop
              ((rest.takeWhile (fun x => !(x = '`') && !(x = '\n'))).length + 1))
      else scanInline fuel rest
    else scanInline fuel rest

/-- Model of `for char in special_chars: text = text.replace(char, '\\' + char)`. -/
def escapeChars (specials : List Char) (cs : List Char) : List Char :=
  specials.foldl (fun acc c =>
    acc.flatMap (fun x => if x = c then ['\\', c] else [x])) cs

/-- The escape set of the plain branch (backtick included). -/
def mdSpecialsFull : List Char :=
  ['_', '*', '[', ']', '(', ')', '~', '`', '>', '#', '+', '-', '=', '|',
    '{', '}', '.', '!']

/-- The escape set of the `preserve_code` branch (no backtick). -/
def mdSpecialsPreserve : List Char :=
  ['_', '*', '[', ']', '(', ')', '~', '>', '#', '+', '-', '=', '|',
    '{', '}', '.', '!']

/-- The placeholder `f"__CODEBLOCK{i}__"` / `f"__INLINECODE{i}__"`. -/
def placeholder (tag : String) (i : Nat) : List Char :=
  tag.data ++ (toString i).data ++ ['_', '_']

/-- Model of `text = text.replace(match.group(), placeholder, 1)` over the matches
in order (extraction direction). -/
def applyPlaceholders (tag : String) (items : List (List Char))
    (cs : List Char) : List Char :=
  (items.enum).foldl
    (fun acc p => replaceFirstL acc p.2 (placeholder tag p.1)) cs

/-- The restore loops: `text.replace(placeholder, code, 1)` in order. -/
def restorePlaceholders (tag : String) (items : List (List Char))
    (cs : List Char) : List Char :=
  (items.enum).foldl
    (fun acc p => replaceFirstL acc (placeholder tag p.1) p.2) cs

/-- Model of `escape_markdown(text, preserve_code)` (src/study_bot.py lines
237-285): empty text unchanged; without `preserve_code` escape everything
including backticks; with it, swap code blocks and inline code out for
placeholders, escape, and swap them back. -/
def escape_markdown (text : String) (preserve_code : Bool) : String :=
  if text = "" then text
  else if !preserve_code then ⟨escapeChars mdSpecialsFull text.data⟩
  else
    ⟨restorePlaceholders "__INLINECODE"
      (scanInline
        (applyPlaceholders "__CODEBLOCK" (scanBlocks text.data.length text.data)
          text.data).length
        (applyPlaceholders "__CODEBLOCK" (scanBlocks text.data.length text.data)
          text.data))
      (restorePlaceholders "__CODEBLOCK" (scanBlocks text.data.length text.data)
        (escapeChars mdSpecialsPreserve
          (applyPlaceholders "__INLINECODE"
            (scanInline
              (applyPlaceholders "__CODEBLOCK"
                (scanBlocks text.data.length text.data) text.data).length
              (applyPlaceholders "__CODEBLOCK"
                (scanBlocks text.data.length text.data) text.data))
            (applyPlaceholders "__CODEBLOCK"
              (scanBlocks text.data.length text.data) text.data))))⟩

/-! ## `extract_keywords` (src/study_bot.py lines 37-64, claim C10) -/

/-- The stop list `common_words`, as the source writes it (the duplicated
members of the Python set literal are harmless for membership). -/
def common_words : List String :=
  ["the", "a", "an", "and", "or", "but", "in", "on", "at", "to", "for",
   "of", "with", "by", "from", "as", "is", "was", "are", "were", "been",
   "be", "have", "has", "had", "do", "does", "did", "will", "would",
   "could", "should", "may", "might", "must", "can", "this", "that",
   "these", "those", "it", "its", "which", "what", "who", "when", "where",
   "a", "an", "the", "is", "are", "was", "were", "has", "have", "had",
   "do", "does", "did", "can", "could", "will", "would", "shall",
   "should", "may", "might", "must"]

/-- Model of `\w` for the ASCII text this regex can match around. -/
def isWordChar (c : Char) : Bool := c.isAlpha || c.isDigit || c = '_'

def isUpperAZ (c : Char) : Bool := decide (65 ≤ c.toNat ∧ c.toNat ≤ 90)

def isLowerAZ (c : Char) : Bool := decide (97 ≤ c.toNat ∧ c.toNat ≤ 122)

/-- The greedy `(?:\s+[A-Z][a-z]+)*` continuation with the final `\b`:
try to append one more whitespace-run-plus-capitalized-word; when no
deeper extension closes with a word boundary, fall back to checking the
boundary right here (dropping the failed repetition), exactly the regex
engine's backtracking.  Returns the matched text and the remainder. -/
def capMatchAux : Nat → List Char → List Char → Option (List Char × List Char)
  | 0, acc, cs =>
    match cs.head? with
    | none => some (acc, cs)
    | some c => if isWordChar c then none else some (acc, cs)
  | fuel + 1, acc, cs =>
    let ws := cs.takeWhile pyWS
    let deeper :=
      if ws.isEmpty then none
      else
        match cs.drop ws.length with
        | u :: rest2 =>
          if isUpperAZ u ∧ ¬(rest2.takeWhile isLowerAZ).isEmpty then
            capMatchAux fuel
              (acc ++ ws ++ u :: rest2.takeWhile isLowerAZ)
              (rest2.drop (rest2.takeWhile isLowerAZ).length)
          else none
        | [] => none
    match deeper with
    | some res => some res
    | none =>
      match cs.head? with
      | none => some (acc, cs)
      | some c => if isWordChar c then none else some (acc, cs)

/-- The scanner of `re.findall(r'\b[A-Z][a-z]+(?:\s+[A-Z][a-z]+)*\b|\b[a-z]{4,}\b',
text)`: at each position with a word boundary (`prevW` tracks whether the
previous character was a word character), try the capitalized-phrase
branch, then the long-lowercase-word branch; on failure advance one
character.  Matches are non-overlapping, in order. -/
def kwScanAux : Nat → Bool → List Char → List (List Char)
  | 0, _, _ => []
  | _ + 1, _, [] => []
  | fuel + 1, prevW, c :: rest =>
    if !prevW && isUpperAZ c then
      if !(rest.takeWhile isLowerAZ).isEmpty then
        match capMatchAux (c :: rest).length (c :: rest.takeWhile isLowerAZ)
            (rest.drop (rest.takeWhile isLowerAZ).length) with
        | some (m, rem) => m :: kwScanAux fuel true rem
        | none => kwScanAux fuel (isWordChar c) rest
      else kwScanAux fuel (isWordChar c) rest
    else if !prevW && isLowerAZ c then
      if 4 ≤ (c :: rest.takeWhile isLowerAZ).length
          && (match (rest.drop (rest.takeWhile isLowerAZ).length).head? with
              | none => true
              | some d => !isWordChar d) then
        (c :: rest.takeWhile isLowerAZ)
          :: kwScanAux fuel true (rest.drop (rest.takeWhile isLowerAZ).length)
      else kwScanAux fuel (isWordChar c) rest
    else kwScanAux fuel (isWordChar c) rest

/-- The filtering step of `extract_keywords`: keep the lowercased word
when it is not a stop word and the word is longer than three characters. -/
def kwStep (acc : List String) (w : List Char) : List String :=
  if (⟨w.map lowerCh⟩ : String) ∉ common_words ∧ 3 < w.length then
    acc ++ [⟨w.map lowerCh⟩]
  else acc

/-- The order-preserving de-duplication of `extract_keywords`. -/
def dedupeFirst : List String → List String → List String
  | _, [] => []
  | seen, k :: ks =>
    if k ∈ seen then dedupeFirst seen ks
    else k :: dedupeFirst (k :: seen) ks

/-- Model of `extract_keywords(text)`: regex matches, stop-list and length filter
on the lowercased words, first-occurrence de-duplication, top 15. -/
def extract_keywords (text : String) : List String :=
  (dedupeFirst []
    ((kwScanAux text.data.length false text.data).foldl kwStep [])).take 15

/-! ## Theorems: the claims and the lemmas supporting them -/

theorem Q.den_pos (q : Q) : 0 < q.den := Nat.succ_pos _

theorem qLe_total (a b : Q) : qLe a b = true ∨ qLe b a = true := by
  simp only [qLe, decide_eq_true_eq]
  exact Nat.le_total _ _

theorem qLe_trans {a b c : Q} (h1 : qLe a b = true) (h2 : qLe b c = true) :
    qLe a c = true := by
  simp only [qLe, decide_eq_true_eq] at h1 h2 ⊢
  have hb := b.den_pos
  have h1' := Nat.mul_le_mul_right c.den h1
  have h2' := Nat.mul_le_mul_right a.den h2
  have : a.num * c.den * b.den ≤ c.num * a.den * b.den := by
    calc a.num * c.den * b.den = a.num * b.den * c.den := by ring
    _ ≤ b.num * a.den * c.den := h1'
    _ = b.num * c.den * a.den := by ring
    _ ≤ c.num * b.den * a.den := h2'
    _ = c.num * a.den * b.den := by ring
  exact Nat.le_of_mul_le_mul_right this hb

theorem not_qLe_iff_qLt {a b : Q} : ¬ qLe a b = true ↔ qLt b a = true := by
  simp only [qLe, qLt, decide_eq_true_eq]
  omega

theorem qLt_of_qLt_of_qLe {a b c : Q} (h1 : qLt a b = true)
    (h2 : qLe b c = true) : qLt a c = true := by
  simp only [qLe, qLt, decide_eq_true_eq] at h1 h2 ⊢
  have hc := c.den_pos
  have h1' := Nat.mul_lt_mul_of_lt_of_le h1 (Nat.le_refl c.den) hc
  have h2' := Nat.mul_le_mul_right a.den h2
  have : a.num * c.den * b.den < c.num * a.den * b.den := by
    calc a.num * c.den * b.den = a.num * b.den * c.den := by ring
    _ < b.num * a.den * c.den := h1'
    _ = b.num * c.den * a.den := by ring
    _ ≤ c.num * b.den * a.den := h2'
    _ = c.num * a.den * b.den := by ring
  exact Nat.lt_of_mul_lt_mul_right this

theorem qEqv_of_qLe_qLe {a b : Q} (h1 : qLe a b = true) (h2 : qLe b a = true) :
    a.Eqv b := by
  simp only [qLe, decide_eq_true_eq] at h1 h2
  exact Nat.le_antisymm h1 h2

/-! ## Facts about `lowerCh`, whitespace and `pyStrip` (for claim C7) -/

theorem lowerCh_of_upper {c : Char} (h : 65 ≤ c.toNat ∧ c.toNat ≤ 90) :
    (lowerCh c).toNat = c.toNat + 32 := by
  have hv : (c.toNat + 32).isValidChar := Or.inl (by omega)
  unfold lowerCh
  rw [if_pos h]
  unfold Char.ofNat
  rw [dif_pos hv]
  rfl

theorem lowerCh_idem (c : Char) : lowerCh (lowerCh c) = lowerCh c := by
  by_cases h : 65 ≤ c.toNat ∧ c.toNat ≤ 90
  · have ht := lowerCh_of_upper h
    have hn : ¬ (65 ≤ (lowerCh c).toNat ∧ (lowerCh c).toNat ≤ 90) := by
      rw [ht]; omega
    calc lowerCh (lowerCh c)
        = if 65 ≤ (lowerCh c).toNat ∧ (lowerCh c).toNat ≤ 90 then
            Char.ofNat ((lowerCh c).toNat + 32) else lowerCh c := rfl
      _ = lowerCh c := if_neg hn
  · have hc : lowerCh c = c := by unfold lowerCh; rw [if_neg h]
    rw [hc, hc]

theorem lowerCh_of_mem_lowerL {c : Char} {l : List Char} (h : c ∈ lowerL l) :
    lowerCh c = c := by
  unfold lowerL at h
  obtain ⟨c', _, rfl⟩ := List.mem_map.mp h
  exact lowerCh_idem c'

theorem lowerL_of_all {l : List Char} (h : ∀ c ∈ l, lowerCh c = c) :
    lowerL l = l := by
  induction l with
  | nil => rfl
  | cons c cs ih =>
    have h1 := h c (List.mem_cons_self c cs)
    have h2 := ih (fun x hx => h x (List.mem_cons_of_mem c hx))
    simp only [lowerL, List.map_cons] at h2 ⊢
    rw [h1, h2]

theorem pyWS_lowerCh {c : Char} (h : pyWS c = true) : lowerCh c = c := by
  simp only [pyWS, Bool.or_eq_true, decide_eq_true_eq] at h
  rcases h with ((((h | h) | h) | h) | h) | h <;> subst h <;> decide

theorem dropWhile_idem (p : Char → Bool) (l : List Char) :
    (l.dropWhile p).dropWhile p = l.dropWhile p := by
  induction l with
  | nil => rfl
  | cons c cs ih =>
    by_cases h : p c
    · simp only [List.dropWhile_cons, h, if_true, ih]
    · simp only [List.dropWhile_cons, h, if_false, List.dropWhile_cons]
      simp [h]

theorem dropWhile_append_eq (p : Char → Bool) (a b : List Char) :
    (a ++ b).dropWhile p =
      if (a.dropWhile p).isEmpty then b.dropWhile p else a.dropWhile p ++ b := by
  induction a with
  | nil => simp
  | cons c cs ih =>
    by_cases h : p c
    · simpa [List.dropWhile_cons, h] using ih
    · simp [List.dropWhile_cons, h]

theorem dropWhile_all {p : Char → Bool} {l : List Char}
    (h : ∀ c ∈ l, p c = true) : l.dropWhile p = [] := by
  induction l with
  | nil => rfl
  | cons c cs ih =>
    simp only [List.dropWhile_cons, h c (List.mem_cons_self c cs), if_true]
    exact ih (fun x hx => h x (List.mem_cons_of_mem c hx))

theorem dropWhile_append_all (p : Char → Bool) {a : List Char} (b : List Char)
    (h : ∀ c ∈ a, p c = true) : (a ++ b).dropWhile p = b.dropWhile p := by
  rw [dropWhile_append_eq]
  simp [dropWhile_all h]

theorem rtrim_idem (l : List Char) : rtrimWS (rtrimWS l) = rtrimWS l := by
  unfold rtrimWS
  rw [List.reverse_reverse, dropWhile_idem]

theorem rtrim_append_all {b : List Char} (x : List Char)
    (h : ∀ c ∈ b, pyWS c = true) : rtrimWS (x ++ b) = rtrimWS x := by
  unfold rtrimWS
  rw [List.reverse_append,
    dropWhile_append_all _ _ (fun c hc => h c (List.mem_reverse.mp hc))]

theorem rtrim_cons_of_head {c : Char} (cs : List Char) (hc : pyWS c = false) :
    ∃ t, rtrimWS (c :: cs) = c :: t := by
  unfold rtrimWS
  rw [show (c :: cs).reverse = cs.reverse ++ [c] by simp, dropWhile_append_eq]
  by_cases he : (cs.reverse.dropWhile pyWS).isEmpty
  · rw [if_pos he]
    refine ⟨[], ?_⟩
    simp [List.dropWhile_cons, hc]
  · rw [if_neg he]
    exact ⟨(cs.reverse.dropWhile pyWS).reverse, by simp⟩

theorem ltrim_rtrim_of_fixed {u : List Char} (hu : ltrimWS u = u) :
    ltrimWS (rtrimWS u) = rtrimWS u := by
  cases u with
  | nil => rfl
  | cons c cs =>
    have hc : pyWS c = false := by
      by_contra h'
      have hpc : pyWS c = true := by
        cases hpw : pyWS c
        · exact absurd hpw h'
        · rfl
      have : (c :: cs).dropWhile pyWS = cs.dropWhile pyWS := by
        simp [List.dropWhile_cons, hpc]
      have hlen := (List.dropWhile_sublist (l := cs) pyWS).length_le
      unfold ltrimWS at hu
      rw [this] at hu
      have := congrArg List.length hu
      simp at this
      omega
    obtain ⟨t, ht⟩ := rtrim_cons_of_head cs hc
    rw [ht]
    unfold ltrimWS
    simp [List.dropWhile_cons, hc]

theorem strip_idem (l : List Char) : pyStrip (pyStrip l) = pyStrip l := by
  unfold pyStrip
  have hu : ltrimWS (ltrimWS l) = ltrimWS l := dropWhile_idem _ _
  rw [ltrim_rtrim_of_fixed hu, rtrim_idem]

theorem mem_of_pyStrip {c : Char} {l : List Char} (h : c ∈ pyStrip l) :
    c ∈ l := by
  unfold pyStrip rtrimWS ltrimWS at h
  have h1 := (List.dropWhile_sublist (l := (l.dropWhile pyWS).reverse) pyWS).subset
    (List.mem_reverse.mp h)
  have h2 := List.mem_reverse.mp h1
  exact (List.dropWhile_sublist (l := l) pyWS).subset h2

theorem strip_surround {pre suf : List Char} (m : List Char)
    (hp : ∀ c ∈ pre, pyWS c = true) (hs : ∀ c ∈ suf, pyWS c = true) :
    pyStrip (pre ++ m ++ suf) = pyStrip m := by
  unfold pyStrip
  have h1 : ltrimWS (pre ++ m ++ suf) = ltrimWS (m ++ suf) := by
    unfold ltrimWS
    rw [List.append_assoc]
    exact dropWhile_append_all _ _ hp
  rw [h1]
  unfold ltrimWS
  rw [dropWhile_append_eq]
  by_cases he : (m.dropWhile pyWS).isEmpty
  · rw [if_pos he]
    rw [dropWhile_all hs, List.isEmpty_iff.mp he]
  · rw [if_neg he]
    exact rtrim_append_all _ hs

/-- C7: `normalize_term` is idempotent, case-insensitive (two strings with
the same lowercasing normalize identically) and insensitive to surrounding
whitespace (leading/trailing whitespace never changes the result). -/
theorem normalize_term_props :
    (∀ s : String, normalize_term (normalize_term s) = normalize_term s) ∧
    (∀ s t : String, lowerL s.data = lowerL t.data →
      normalize_term s = normalize_term t) ∧
    (∀ (s : String) (pre suf : List Char), (∀ c ∈ pre, pyWS c = true) →
      (∀ c ∈ suf, pyWS c = true) →
      normalize_term ⟨pre ++ s.data ++ suf⟩ = normalize_term s) := by
  refine ⟨?_, ?_, ?_⟩
  · intro s
    show (⟨pyStrip (lowerL (pyStrip (lowerL s.data)))⟩ : String) =
      ⟨pyStrip (lowerL s.data)⟩
    have h1 : lowerL (pyStrip (lowerL s.data)) = pyStrip (lowerL s.data) :=
      lowerL_of_all (fun c hc => lowerCh_of_mem_lowerL (mem_of_pyStrip hc))
    rw [h1, strip_idem]
  · intro s t h
    show (⟨pyStrip (lowerL s.data)⟩ : String) = ⟨pyStrip (lowerL t.data)⟩
    rw [h]
  · intro s pre suf hp hs
    show (⟨pyStrip (lowerL (pre ++ s.data ++ suf))⟩ : String) =
      ⟨pyStrip (lowerL s.data)⟩
    have hm : lowerL (pre ++ s.data ++ suf) =
        lowerL pre ++ lowerL s.data ++ lowerL suf := by
      simp [lowerL]
    rw [hm, strip_surround (lowerL s.data)
      (fun c hc => ?_) (fun c hc => ?_)]
    · obtain ⟨c', hc', rfl⟩ := List.mem_map.mp hc
      rw [pyWS_lowerCh (hp c' hc')]
      exact hp c' hc'
    · obtain ⟨c', hc', rfl⟩ := List.mem_map.mp hc
      rw [pyWS_lowerCh (hs c' hc')]
      exact hs c' hc'

/-- Witness for C7 at concrete inputs. -/
theorem normalize_term_props_witness :
    normalize_term (normalize_term "  AbC ") = normalize_term "  AbC " ∧
    (lowerL ("aB" : String).data = lowerL ("Ab" : String).data ∧
      normalize_term "aB" = normalize_term "Ab") ∧
    ((∀ c ∈ [' '], pyWS c = true) ∧ (∀ c ∈ ['\t'], pyWS c = true) ∧
      normalize_term ⟨[' '] ++ ("ab" : String).data ++ ['\t']⟩ =
        normalize_term "ab") :=
  ⟨normalize_term_props.1 "  AbC ",
   ⟨by decide, normalize_term_props.2.1 "aB" "Ab" (by decide)⟩,
   ⟨by decide, by decide,
    normalize_term_props.2.2 "ab" [' '] ['\t'] (by decide) (by decide)⟩⟩

/-- C8: the partition file path depends only on the absolute value of the
channel id, so channels `c` and `-c` share one knowledge partition file. -/
theorem get_knowledge_file_abs (c : Int) :
    get_knowledge_file c = get_knowledge_file (-c) := by
  unfold get_knowledge_file
  rw [Int.natAbs_neg]

/-- C5: when the backing file is absent, or its contents fail to parse,
`load_knowledge` returns the empty mapping; no exception escapes (the
embedding is a total function whose failure arms are the two `except`
handlers of the source). -/
theorem load_knowledge_missing_or_corrupt
    (fs : String → Option String)
    (parseJson : String → Except String (List (String × Entry)))
    (channel_id : Option Int)
    (h : ∀ c d, fs (knowledgeFilename channel_id) = some c →
      parseJson c ≠ Except.ok d) :
    load_knowledge fs parseJson channel_id = [] := by
  unfold load_knowledge
  cases hf : fs (knowledgeFilename channel_id) with
  | none => rfl
  | some c =>
    show (match parseJson c with
      | Except.ok d => d
      | Except.error _ => []) = []
    cases hp : parseJson c with
    | ok d => exact absurd hp (h c d hf)
    | error e => rfl

/-- Witness for C5: a file holding non-JSON content loads as `{}`. -/
theorem load_knowledge_missing_or_corrupt_witness :
    load_knowledge (fun _ => some "not json")
      (fun _ => Except.error "Expecting value") (some (-42)) = [] :=
  load_knowledge_missing_or_corrupt _ _ _ (fun _ _ _ hp => nomatch hp)

theorem delete_fold_miss (tn : String)
    (cs : List (Int × List (String × Entry)))
    (h : ∀ c ∈ cs, c.2.lookup tn = none) :
    ∀ acc : DeleteOutcome, cs.foldl (deleteStep tn) acc =
      ⟨acc.manualKB, acc.channelKBs ++ cs, acc.deletedFrom, acc.saves⟩ := by
  induction cs with
  | nil => intro acc; simp
  | cons c cs ih =>
    intro acc
    have hc := h c (List.mem_cons_self c cs)
    have hstep : deleteStep tn acc c =
        ⟨acc.manualKB, acc.channelKBs ++ [c], acc.deletedFrom, acc.saves⟩ := by
      unfold deleteStep
      rw [hc]
    rw [List.foldl_cons, hstep,
      ih (fun x hx => h x (List.mem_cons_of_mem c hx))]
    simp

/-- C6: deleting a term whose normalized key is stored in no partition
reports not-found (`deletedFrom = []` selects the not-found reply), leaves
the default partition and every channel partition unchanged, and performs
no save. -/
theorem delete_term_miss (term : String)
    (manualKB : List (String × Entry))
    (channelKBs : List (Int × List (String × Entry)))
    (h0 : manualKB.lookup (normalize_term term) = none)
    (h1 : ∀ c ∈ channelKBs, c.2.lookup (normalize_term term) = none) :
    delete_term term manualKB channelKBs = ⟨manualKB, channelKBs, [], []⟩ := by
  unfold delete_term
  rw [h0, delete_fold_miss _ _ h1]
  rfl

/-- Witness for C6 at a concrete miss. -/
theorem delete_term_miss_witness :
    (List.lookup (normalize_term "Ghost") [("a", entry0)] = none ∧
      ∀ c ∈ [((7 : Int), ([] : List (String × Entry)))],
        c.2.lookup (normalize_term "Ghost") = none) ∧
    delete_term "Ghost" [("a", entry0)] [((7 : Int), [])] =
      ⟨[("a", entry0)], [((7 : Int), [])], [], []⟩ :=
  ⟨⟨by decide, by decide⟩,
   delete_term_miss "Ghost" _ _ (by decide) (by decide)⟩

/-- C3 counterexample: `" - x - y"` contains the supported separator
`" - "` with non-empty stripped text on both sides (shown by the explicit
decomposition), yet both parsers return `(None, None)`: each splits only at
the FIRST occurrence of a separator (here at index 0, with an empty left
side) and then moves on to the next separator, never to a later occurrence
of the same one. -/
theorem extract_definition_counterexample :
    (" - " ∈ separators) ∧
    (" - x - y" : String).data =
      (" - x" : String).data ++ (" - " : String).data ++ ("y" : String).data ∧
    pyStrip (" - x" : String).data ≠ [] ∧
    pyStrip ("y" : String).data ≠ [] ∧
    extract_definition " - x - y" = none ∧
    extract_definition_sb " - x - y" = none := by
  decide

theorem ne_nil_iff_not_isEmpty (l : List Char) :
    (l ≠ []) ↔ l.isEmpty = false := by
  cases l <;> simp

theorem scanSepsA_eq (seps : List String) (t : List Char) :
    scanSepsA seps t = (seps.find? (goodSepA t)).bind (fun sep =>
      (splitOnceAux sep.data t).map
        (fun p => ((⟨pyStrip p.1⟩ : String), (⟨pyStrip p.2⟩ : String)))) := by
  induction seps with
  | nil => rfl
  | cons sep rest ih =>
    rw [List.find?_cons]
    cases hsp : splitOnceAux sep.data t with
    | none =>
      have hg : goodSepA t sep = false := by unfold goodSepA; rw [hsp]
      rw [hg]
      simp only [scanSepsA, hsp]
      exact ih
    | some p =>
      obtain ⟨l, r⟩ := p
      by_cases hnn : pyStrip l ≠ [] ∧ pyStrip r ≠ []
      · have hg : goodSepA t sep = true := by
          unfold goodSepA
          rw [hsp]
          show (!(pyStrip l).isEmpty && !(pyStrip r).isEmpty) = true
          rw [(ne_nil_iff_not_isEmpty _).mp hnn.1,
            (ne_nil_iff_not_isEmpty _).mp hnn.2]
          rfl
        rw [hg]
        simp only [scanSepsA, hsp]
        rw [if_pos hnn]
        simp [hsp]
      · have hg : goodSepA t sep = false := by
          unfold goodSepA
          rw [hsp]
          show (!(pyStrip l).isEmpty && !(pyStrip r).isEmpty) = false
          rcases not_and_or.mp hnn with h | h
          · rw [not_ne_iff.mp h]
            rfl
          · rw [not_ne_iff.mp h]
            simp
        rw [hg]
        simp only [scanSepsA, hsp]
        rw [if_neg hnn]
        exact ih

theorem scanSepsB_eq (seps : List String) (orig clean : List Char) :
    scanSepsB seps orig clean =
      (seps.find? (goodSepB orig clean)).bind (fun sep =>
        (splitOnceAux sep.data clean).map
          (fun p =>
            ((⟨pyStrip p.1⟩ : String), (⟨defnPartB orig sep p.2⟩ : String)))) := by
  induction seps with
  | nil => rfl
  | cons sep rest ih =>
    rw [List.find?_cons]
    cases hsp : splitOnceAux sep.data clean with
    | none =>
      have hg : goodSepB orig clean sep = false := by unfold goodSepB; rw [hsp]
      rw [hg]
      simp only [scanSepsB, hsp]
      exact ih
    | some p =>
      obtain ⟨l, r⟩ := p
      by_cases hnn : pyStrip l ≠ [] ∧ defnPartB orig sep r ≠ []
      · have hg : goodSepB orig clean sep = true := by
          unfold goodSepB
          rw [hsp]
          show (!(pyStrip l).isEmpty && !(defnPartB orig sep r).isEmpty) = true
          rw [(ne_nil_iff_not_isEmpty _).mp hnn.1,
            (ne_nil_iff_not_isEmpty _).mp hnn.2]
          rfl
        rw [hg]
        simp only [scanSepsB, hsp]
        rw [if_pos hnn]
        simp [hsp]
      · have hg : goodSepB orig clean sep = false := by
          unfold goodSepB
          rw [hsp]
          show (!(pyStrip l).isEmpty && !(defnPartB orig sep r).isEmpty) = false
          rcases not_and_or.mp hnn with h | h
          · rw [not_ne_iff.mp h]
            rfl
          · rw [not_ne_iff.mp h]
            simp
        rw [hg]
        simp only [scanSepsB, hsp]
        rw [if_neg hnn]
        exact ih

/-- C3 amended: after the markdown pre-pass, each parser scans the
separators in list order, splits at the FIRST OCCURRENCE of each, and
returns the first split whose two (stripped) sides are non-empty — app.py
returning the stripped pair, study_bot.py taking the definition side from
the original text after its first separator occurrence when present.  When
no separator's first-occurrence split qualifies, `(None, None)` results. -/
theorem extract_definition_first_good_sep (text : String) :
    extract_definition text = firstGoodSplitA (stripMarkdown text.data) ∧
    extract_definition_sb text =
      firstGoodSplitB text.data (stripMarkdown text.data) :=
  ⟨scanSepsA_eq separators (stripMarkdown text.data),
   scanSepsB_eq separators text.data (stripMarkdown text.data)⟩

/-! ## Content classification (claim C9) -/

theorem isPrefixOfE (p : List Char) : ∀ l : List Char,
    p.isPrefixOf l = true ↔ ∃ t, p ++ t = l := by
  induction p with
  | nil => intro l; simp [List.isPrefixOf]
  | cons c cs ih =>
    intro l
    cases l with
    | nil => simp [List.isPrefixOf]
    | cons d ds =>
      simp only [List.isPrefixOf, Bool.and_eq_true, beq_iff_eq, ih ds]
      constructor
      · rintro ⟨rfl, t, rfl⟩
        exact ⟨t, rfl⟩
      · rintro ⟨t, ht⟩
        have h1 : c = d ∧ cs ++ t = ds := by
          have := ht
          rw [List.cons_append] at this
          exact ⟨(List.cons.injEq _ _ _ _ ▸ this).1,
            (List.cons.injEq _ _ _ _ ▸ this).2⟩
        exact ⟨h1.1, t, h1.2⟩

theorem splitOnceAux_isSome_iff (sep : List Char) : ∀ cs : List Char,
    (splitOnceAux sep cs).isSome = true ↔ ∃ l r, cs = l ++ sep ++ r := by
  intro cs
  induction cs with
  | nil =>
    unfold splitOnceAux
    by_cases h : sep.isEmpty
    · rw [if_pos h]
      constructor
      · intro _
        exact ⟨[], [], by rw [List.isEmpty_iff.mp h]; rfl⟩
      · intro _
        rfl
    · rw [if_neg h]
      constructor
      · intro hfalse
        exact absurd hfalse (by simp)
      · rintro ⟨l, r, hlr⟩
        rcases List.append_eq_nil.mp hlr.symm with ⟨h3, _⟩
        rcases List.append_eq_nil.mp h3 with ⟨_, h4⟩
        exact absurd (by rw [h4]; rfl) h
  | cons c cs ih =>
    show ((if sep.isPrefixOf (c :: cs) then
        some ([], (c :: cs).drop sep.length)
      else
        match splitOnceAux sep cs with
        | some (l, r) => some (c :: l, r)
        | none => none).isSome = true) ↔ _
    by_cases hp : sep.isPrefixOf (c :: cs)
    · rw [if_pos hp]
      constructor
      · intro _
        obtain ⟨t, ht⟩ := (isPrefixOfE sep (c :: cs)).mp hp
        exact ⟨[], t, by rw [← ht]; rfl⟩
      · intro _
        rfl
    · rw [if_neg hp]
      have key : (match splitOnceAux sep cs with
          | some (l, r) => some (c :: l, r)
          | none => (none : Option (List Char × List Char))).isSome =
          (splitOnceAux sep cs).isSome := by
        cases splitOnceAux sep cs with
        | none => rfl
        | some p => obtain ⟨a, b⟩ := p; rfl
      rw [key, ih]
      constructor
      · rintro ⟨l, r, hlr⟩
        exact ⟨c :: l, r, by rw [hlr]; rfl⟩
      · rintro ⟨l, r, hlr⟩
        cases l with
        | nil =>
          exfalso
          refine hp ((isPrefixOfE sep (c :: cs)).mpr ⟨r, ?_⟩)
          rw [hlr]
          rfl
        | cons a l' =>
          have h1 : c = a ∧ cs = l' ++ sep ++ r := by
            have : c :: cs = a :: (l' ++ sep ++ r) := by rw [hlr]; rfl
            exact ⟨(List.cons.injEq _ _ _ _ ▸ this).1,
              (List.cons.injEq _ _ _ _ ▸ this).2⟩
          exact ⟨l', r, h1.2⟩

theorem ifchain_props (b1 b2 : Bool) :
    ((if b1 = true then "list" else if b2 = true then "long_form" else "note")
        ≠ "definition") ∧
    ((if b1 = true then "list" else if b2 = true then "long_form" else "note")
        ∈ (["list", "long_form", "note"] : List String)) := by
  by_cases h1 : b1 = true
  · rw [if_pos h1]
    exact ⟨by decide, by decide⟩
  · rw [if_neg h1]
    by_cases h2 : b2 = true
    · rw [if_pos h2]
      exact ⟨by decide, by decide⟩
    · rw [if_neg h2]
      exact ⟨by decide, by decide⟩

/-- C9: the classifier returns "definition" exactly when some of the five
separators occurs in the text (shown as an explicit decomposition) and the
text spans at most two lines (`len(text.split('\n')) = count of newlines
plus one`); with a separator but three or more lines, the type is always
one of "list", "long_form", "note". -/
theorem detect_content_type_definition_iff (text : String) :
    ((detect_content_type_tag text = "definition") ↔
      ((∃ sep ∈ separators, ∃ l r, text.data = l ++ sep.data ++ r) ∧
        text.data.countP (fun c => c = '\n') + 1 ≤ 2)) ∧
    ((∃ sep ∈ separators, ∃ l r, text.data = l ++ sep.data ++ r) →
      3 ≤ text.data.countP (fun c => c = '\n') + 1 →
      detect_content_type_tag text ∈ (["list", "long_form", "note"] : List String)) := by
  have hany : (separators.any (fun sep => strInL sep.data text.data) = true) ↔
      (∃ sep ∈ separators, ∃ l r, text.data = l ++ sep.data ++ r) := by
    rw [List.any_eq_true]
    constructor
    · rintro ⟨sep, hmem, hs⟩
      exact ⟨sep, hmem, (splitOnceAux_isSome_iff _ _).mp hs⟩
    · rintro ⟨sep, hmem, hex⟩
      exact ⟨sep, hmem, (splitOnceAux_isSome_iff _ _).mpr hex⟩
  constructor
  · by_cases hdef : (separators.any (fun sep => strInL sep.data text.data)
        && decide (text.data.countP (fun c => c = '\n') + 1 ≤ 2)) = true
    · unfold detect_content_type_tag
      rw [if_pos hdef]
      rw [Bool.and_eq_true] at hdef
      rcases hdef with ⟨ha, hl⟩
      simp only [decide_eq_true_eq] at hl
      exact ⟨fun _ => ⟨hany.mp ha, hl⟩, fun _ => rfl⟩
    · unfold detect_content_type_tag
      rw [if_neg hdef]
      constructor
      · intro hval
        exact absurd hval (ifchain_props _ _).1
      · rintro ⟨hsep, hlen⟩
        refine absurd ?_ hdef
        rw [Bool.and_eq_true]
        exact ⟨hany.mpr hsep, by simp only [decide_eq_true_eq]; exact hlen⟩
  · intro hsep hge
    have hd : (separators.any (fun sep => strInL sep.data text.data)
        && decide (text.data.countP (fun c => c = '\n') + 1 ≤ 2)) = false := by
      have h2 : (decide (text.data.countP (fun c => c = '\n') + 1 ≤ 2)) = false := by
        simp only [decide_eq_false_iff_not]
        omega
      rw [h2, Bool.and_false]
    unfold detect_content_type_tag
    rw [if_neg (fun hcond => Bool.false_ne_true (hd ▸ hcond))]
    exact (ifchain_props _ _).2

/-- Witness for C9 at concrete inputs: a one-line definition and a
three-line text with a separator that is classified as a non-definition. -/
theorem detect_content_type_definition_iff_witness :
    detect_content_type_tag "a - b" = "definition" ∧
    detect_content_type_tag "a - b\nc\nd" ∈
      (["list", "long_form", "note"] : List String) :=
  ⟨(detect_content_type_definition_iff "a - b").1.mpr
      ⟨⟨" - ", by decide, ("a" : String).data, ("b" : String).data, by decide⟩,
        by decide⟩,
   (detect_content_type_definition_iff "a - b\nc\nd").2
      ⟨" - ", by decide, ("a" : String).data, ("b\nc\nd" : String).data,
        by decide⟩
      (by decide)⟩

theorem qLe_refl (a : Q) : qLe a a = true := by
  simp [qLe]

theorem qLe_of_qLt {a b : Q} (h : qLt a b = true) : qLe a b = true := by
  simp only [qLe, qLt, decide_eq_true_eq] at *
  omega

theorem qEqB_iff_Eqv {a b : Q} : qEqB a b = true ↔ a.Eqv b := by
  simp [qEqB, Q.Eqv]

theorem qEqv_refl (a : Q) : a.Eqv a := rfl

theorem qEqv_symm {a b : Q} (h : a.Eqv b) : b.Eqv a := h.symm

theorem qEqv_trans {a b c : Q} (h1 : a.Eqv b) (h2 : b.Eqv c) : a.Eqv c := by
  unfold Q.Eqv at *
  have hb := b.den_pos
  have : a.num * c.den * b.den = c.num * a.den * b.den := by
    calc a.num * c.den * b.den = a.num * b.den * c.den := by ring
    _ = b.num * a.den * c.den := by rw [h1]
    _ = b.num * c.den * a.den := by ring
    _ = c.num * b.den * a.den := by rw [h2]
    _ = c.num * a.den * b.den := by ring
  exact Nat.eq_of_mul_eq_mul_right hb this

theorem qLt_not_eqv {a b : Q} (h : qLt a b = true) : ¬ a.Eqv b := by
  simp only [qLt, decide_eq_true_eq] at h
  unfold Q.Eqv
  omega

theorem qLe_of_eqv_left {a b c : Q} (h : a.Eqv b) (h2 : qLe b c = true) :
    qLe a c = true := by
  unfold Q.Eqv at h
  simp only [qLe, decide_eq_true_eq] at *
  have hb := b.den_pos
  have step : a.num * c.den * b.den ≤ c.num * a.den * b.den := by
    calc a.num * c.den * b.den = a.num * b.den * c.den := by ring
    _ = b.num * a.den * c.den := by rw [h]
    _ = b.num * c.den * a.den := by ring
    _ ≤ c.num * b.den * a.den := Nat.mul_le_mul_right a.den h2
    _ = c.num * a.den * b.den := by ring
  exact Nat.le_of_mul_le_mul_right step hb

theorem qLe_of_eqv_right {a b c : Q} (h : b.Eqv c) (h2 : qLe a b = true) :
    qLe a c = true := by
  unfold Q.Eqv at h
  simp only [qLe, decide_eq_true_eq] at *
  have hb := b.den_pos
  have step : a.num * c.den * b.den ≤ c.num * a.den * b.den := by
    calc a.num * c.den * b.den = a.num * b.den * c.den := by ring
    _ ≤ b.num * a.den * c.den := Nat.mul_le_mul_right c.den h2
    _ = b.num * c.den * a.den := by ring
    _ = c.num * b.den * a.den := by rw [h]
    _ = c.num * a.den * b.den := by ring
  exact Nat.le_of_mul_le_mul_right step hb

theorem stableInsert_perm (pge : α → α → Bool) (x : α) (l : List α) :
    (stableInsert pge x l).Perm (x :: l) := by
  induction l with
  | nil => exact List.Perm.refl _
  | cons y ys ih =>
    unfold stableInsert
    by_cases h : pge x y = true
    · rw [if_pos h]
    · rw [if_neg h]
      exact (List.Perm.cons y ih).trans (List.Perm.swap x y ys)

theorem stableSortDesc_perm (pge : α → α → Bool) (l : List α) :
    (stableSortDesc pge l).Perm l := by
  induction l with
  | nil => exact List.Perm.refl _
  | cons x xs ih =>
    exact (stableInsert_perm pge x _).trans (List.Perm.cons x ih)

theorem bool_eq_false_of_not {b : Bool} (h : ¬ b = true) : b = false := by
  cases hb : b
  · rfl
  · exact absurd hb h

theorem stableInsert_pairwise (sc : α → Q) (x : α) (l : List α)
    (hl : List.Pairwise (fun a b => qLe (sc b) (sc a) = true) l) :
    List.Pairwise (fun a b => qLe (sc b) (sc a) = true)
      (stableInsert (scGe sc) x l) := by
  induction l with
  | nil => exact List.pairwise_singleton _ _
  | cons y ys ih =>
    unfold stableInsert
    rcases List.pairwise_cons.mp hl with ⟨hy, hys⟩
    by_cases h : scGe sc x y = true
    · rw [if_pos h]
      refine List.pairwise_cons.mpr ⟨?_, hl⟩
      intro z hz
      rcases List.mem_cons.mp hz with rfl | hz'
      · exact h
      · exact qLe_trans (hy z hz') h
    · rw [if_neg h]
      refine List.pairwise_cons.mpr ⟨?_, ih hys⟩
      intro z hz
      have hz' := (stableInsert_perm (scGe sc) x ys).mem_iff.mp hz
      rcases List.mem_cons.mp hz' with rfl | hz''
      · exact qLe_of_qLt (not_qLe_iff_qLt.mp h)
      · exact hy z hz''

theorem stableSortDesc_pairwise (sc : α → Q) (l : List α) :
    List.Pairwise (fun a b => qLe (sc b) (sc a) = true)
      (stableSortDesc (scGe sc) l) := by
  induction l with
  | nil => exact List.Pairwise.nil
  | cons x xs ih => exact stableInsert_pairwise sc x _ ih

theorem stableInsert_decomp (pge : α → α → Bool) (x : α) (l : List α) :
    ∃ P S, l = P ++ S ∧ stableInsert pge x l = P ++ x :: S ∧
      ∀ y ∈ P, pge x y = false := by
  induction l with
  | nil => exact ⟨[], [], rfl, rfl, by simp⟩
  | cons y ys ih =>
    by_cases h : pge x y = true
    · exact ⟨[], y :: ys, rfl, by unfold stableInsert; rw [if_pos h]; rfl,
        by simp⟩
    · obtain ⟨P, S, h1, h2, h3⟩ := ih
      refine ⟨y :: P, S, by rw [List.cons_append, ← h1], ?_, ?_⟩
      · show stableInsert pge x (y :: ys) = y :: (P ++ x :: S)
        unfold stableInsert
        rw [if_neg h, h2]
      · intro z hz
        rcases List.mem_cons.mp hz with rfl | hz'
        · exact bool_eq_false_of_not h
        · exact h3 z hz'

theorem filter_cons_pos (p : α → Bool) (a : α) (l : List α) (h : p a = true) :
    (a :: l).filter p = a :: l.filter p := by
  rw [List.filter_cons, h]
  simp

theorem filter_cons_neg (p : α → Bool) (a : α) (l : List α) (h : p a = false) :
    (a :: l).filter p = l.filter p := by
  rw [List.filter_cons, h]
  simp

theorem stableSortDesc_filter_eqv (sc : α → Q) (s : Q) (l : List α) :
    (stableSortDesc (scGe sc) l).filter (fun x => qEqB (sc x) s) =
      l.filter (fun x => qEqB (sc x) s) := by
  induction l with
  | nil => rfl
  | cons x xs ih =>
    show (stableInsert (scGe sc) x (stableSortDesc (scGe sc) xs)).filter _ = _
    obtain ⟨P, S, h1, h2, h3⟩ :=
      stableInsert_decomp (scGe sc) x (stableSortDesc (scGe sc) xs)
    rw [h1, List.filter_append] at ih
    rw [h2, List.filter_append]
    by_cases hx : qEqB (sc x) s = true
    · have hP : P.filter (fun y => qEqB (sc y) s) = [] := by
        rw [List.filter_eq_nil_iff]
        intro y hy hyq
        have hlt : qLt (sc x) (sc y) = true :=
          not_qLe_iff_qLt.mp (fun hc => by
            have := h3 y hy
            unfold scGe at this
            rw [this] at hc
            exact Bool.false_ne_true hc)
        exact qLt_not_eqv hlt
          (qEqv_trans (qEqB_iff_Eqv.mp hx) (qEqv_symm (qEqB_iff_Eqv.mp hyq)))
      rw [hP] at ih ⊢
      rw [filter_cons_pos (fun y => qEqB (sc y) s) x S hx,
        filter_cons_pos (fun y => qEqB (sc y) s) x xs hx]
      rw [List.nil_append] at ih
      rw [List.nil_append, ih]
    · have hx' : qEqB (sc x) s = false := bool_eq_false_of_not hx
      rw [filter_cons_neg (fun y => qEqB (sc y) s) x S hx',
        filter_cons_neg (fun y => qEqB (sc y) s) x xs hx']
      exact ih

theorem stableSortDesc_cons_max (sc : α → Q) (x : α) (rest : List α)
    (h : ∀ y ∈ rest, qLt (sc y) (sc x) = true) :
    stableSortDesc (scGe sc) (x :: rest) =
      x :: stableSortDesc (scGe sc) rest := by
  show stableInsert (scGe sc) x (stableSortDesc (scGe sc) rest) = _
  cases hs : stableSortDesc (scGe sc) rest with
  | nil => rfl
  | cons y ys =>
    have hy : y ∈ rest := (stableSortDesc_perm (scGe sc) rest).mem_iff.mp
      (by rw [hs]; exact List.mem_cons_self y ys)
    have hxy : scGe sc x y = true := qLe_of_qLt (h y hy)
    unfold stableInsert
    rw [if_pos hxy]

/-! ## `List.find?` helpers for the duplicate-removal arguments -/

theorem find?_congr {p q : α → Bool} (l : List α)
    (h : ∀ x ∈ l, p x = q x) : l.find? p = l.find? q := by
  induction l with
  | nil => rfl
  | cons x xs ih =>
    rw [List.find?_cons, List.find?_cons, h x (List.mem_cons_self x xs)]
    cases q x
    · exact ih (fun z hz => h z (List.mem_cons_of_mem x hz))
    · rfl

theorem find?_filter (p q : α → Bool) (l : List α) :
    (l.filter q).find? p = l.find? (fun a => q a && p a) := by
  induction l with
  | nil => rfl
  | cons x xs ih =>
    by_cases hq : q x = true
    · rw [List.filter_cons_of_pos hq, List.find?_cons, List.find?_cons, hq,
        Bool.true_and]
      cases p x
      · exact ih
      · rfl
    · have hq' : q x = false := bool_eq_false_of_not hq
      rw [List.filter_cons_of_neg (by rw [hq']; exact Bool.false_ne_true),
        List.find?_cons, hq', Bool.false_and]
      exact ih

theorem find?_decomp {p : α → Bool} {l : List α} {a : α}
    (h : l.find? p = some a) :
    ∃ A B, l = A ++ a :: B ∧ ∀ x ∈ A, p x = false := by
  induction l with
  | nil => exact absurd h (by simp)
  | cons x xs ih =>
    rw [List.find?_cons] at h
    cases hp : p x
    · rw [hp] at h
      obtain ⟨A, B, h1, h2⟩ := ih h
      refine ⟨x :: A, B, by rw [h1]; rfl, ?_⟩
      intro z hz
      rcases List.mem_cons.mp hz with rfl | hz'
      · exact hp
      · exact h2 z hz'
    · rw [hp] at h
      exact ⟨[], xs, by rw [Option.some_inj.mp h]; rfl, by simp⟩

theorem find?_of_decomp {p : α → Bool} {A : List α} {a : α} (B : List α)
    (hA : ∀ x ∈ A, p x = false) (ha : p a = true) :
    (A ++ a :: B).find? p = some a := by
  induction A with
  | nil => rw [List.nil_append, List.find?_cons, ha]
  | cons x xs ih =>
    rw [List.cons_append, List.find?_cons, hA x (List.mem_cons_self x xs)]
    exact ih (fun z hz => hA z (List.mem_cons_of_mem x hz))

/-- The central stability consequence: the first element of the stable
descending sort satisfying `tp` is the first element of the ORIGINAL list
that satisfies `tp` with the greatest score among `tp`-elements.  This is
what the cross-partition duplicate removal keeps for each term. -/
theorem sort_find?_max (sc : α → Q) (tp : α → Bool) (l : List α) :
    (stableSortDesc (scGe sc) l).find? tp =
      l.find? (fun x => tp x &&
        decide (∀ y ∈ l, tp y = true → qLe (sc y) (sc x) = true)) := by
  cases hf : (stableSortDesc (scGe sc) l).find? tp with
  | none =>
    rw [List.find?_eq_none] at hf
    rw [eq_comm, List.find?_eq_none]
    intro x hx hpx
    rw [Bool.and_eq_true] at hpx
    exact hf x ((stableSortDesc_perm (scGe sc) l).mem_iff.mpr hx) hpx.1
  | some r =>
    have htr : tp r = true := List.find?_some hf
    obtain ⟨A, B, hAB, hAfree⟩ := find?_decomp hf
    have hrmem : r ∈ l := (stableSortDesc_perm (scGe sc) l).mem_iff.mp
      (by rw [hAB]; exact List.mem_append_right A (List.mem_cons_self r B))
    have hmax : ∀ y ∈ l, tp y = true → qLe (sc y) (sc r) = true := by
      intro y hy htpy
      have hy' : y ∈ A ++ r :: B := hAB ▸
        ((stableSortDesc_perm (scGe sc) l).mem_iff.mpr hy)
      rcases List.mem_append.mp hy' with hyA | hyrB
      · exact absurd htpy (by rw [hAfree y hyA]; exact Bool.false_ne_true)
      · rcases List.mem_cons.mp hyrB with rfl | hyB
        · exact qLe_refl _
        · have hpw := stableSortDesc_pairwise sc l
          rw [hAB] at hpw
          have hpw2 := hpw.sublist (List.sublist_append_right A (r :: B))
          exact (List.pairwise_cons.mp hpw2).1 y hyB
    -- on members of l, the maximality predicate is "tp and score ≍ sc r"
    have hcongr : ∀ x ∈ l,
        (tp x && decide (∀ y ∈ l, tp y = true → qLe (sc y) (sc x) = true)) =
        (tp x && qEqB (sc x) (sc r)) := by
      intro x _
      cases htpx : tp x
      · rfl
      · rw [Bool.true_and, Bool.true_and]
        by_cases hm : ∀ y ∈ l, tp y = true → qLe (sc y) (sc x) = true
        · rw [decide_eq_true hm, eq_comm]
          exact qEqB_iff_Eqv.mpr
            (qEqv_of_qLe_qLe (hmax x ‹x ∈ l› htpx) (hm r hrmem htr))
        · rw [decide_eq_false hm, eq_comm]
          cases hq : qEqB (sc x) (sc r)
          · rfl
          · exfalso
            apply hm
            intro y hy htpy
            exact qLe_of_eqv_right (qEqv_symm (qEqB_iff_Eqv.mp hq))
              (hmax y hy htpy)
      -- the `x ∈ l` hypothesis is consumed via the pattern above
    rw [find?_congr l hcongr]
    -- find? of (tp && eq-score) commutes with the score-equality filter,
    -- which the stable sort preserves
    have step1 : l.find? (fun x => tp x && qEqB (sc x) (sc r)) =
        (l.filter (fun x => qEqB (sc x) (sc r))).find? tp := by
      rw [find?_filter]
      apply find?_congr
      intro x _
      exact Bool.and_comm _ _
    have step2 : (l.filter (fun x => qEqB (sc x) (sc r))).find? tp =
        ((stableSortDesc (scGe sc) l).filter
          (fun x => qEqB (sc x) (sc r))).find? tp := by
      rw [stableSortDesc_filter_eqv]
    have step3 : ((stableSortDesc (scGe sc) l).filter
        (fun x => qEqB (sc x) (sc r))).find? tp = some r := by
      rw [find?_filter]
      rw [hAB]
      refine find?_of_decomp B ?_ ?_
      · intro x hx
        rw [hAfree x hx, Bool.and_false]
      · rw [htr, Bool.and_true]
        exact qEqB_iff_Eqv.mpr (qEqv_refl _)
    rw [step1, step2, step3]

theorem skPartial_fold_shape (qn : String) (items : List (String × Entry)) :
    ∀ st : List (String × Entry × Q) × List String,
      ∃ t, (items.foldl (skPartialStep qn) st).1 = st.1 ++ t ∧
        ∀ r ∈ t, r.2.2 = qOf 4 5 := by
  induction items with
  | nil => intro st; exact ⟨[], by simp, by simp⟩
  | cons td items ih =>
    intro st
    obtain ⟨t, ht, hs⟩ := ih (skPartialStep qn st td)
    rw [List.foldl_cons]
    have hstep : (skPartialStep qn st td).1 = st.1 ∨
        (skPartialStep qn st td).1 = st.1 ++ [(td.1, td.2, qOf 4 5)] := by
      unfold skPartialStep
      by_cases h1 : td.1 ∈ st.2
      · rw [if_pos h1]
        exact Or.inl rfl
      · rw [if_neg h1]
        by_cases h2 : (strIn qn td.1 || strIn td.1 qn) = true
        · rw [if_pos h2]
          exact Or.inr rfl
        · rw [if_neg h2]
          exact Or.inl rfl
    rcases hstep with he | he
    · exact ⟨t, by rw [ht, he], hs⟩
    · refine ⟨(td.1, td.2, qOf 4 5) :: t, ?_, ?_⟩
      · rw [ht, he, List.append_assoc]
        rfl
      · intro r hr
        rcases List.mem_cons.mp hr with rfl | hr'
        · rfl
        · exact hs r hr'

theorem skFuzzy_fold_shape (knowledge : List (String × Entry))
    (ms : List String) :
    ∀ st : List (String × Entry × Q) × List String,
      ∃ t, (ms.foldl (skFuzzyStep knowledge) st).1 = st.1 ++ t ∧
        ∀ r ∈ t, r.2.2 = qOf 3 5 := by
  induction ms with
  | nil => intro st; exact ⟨[], by simp, by simp⟩
  | cons m ms ih =>
    intro st
    obtain ⟨t, ht, hs⟩ := ih (skFuzzyStep knowledge st m)
    rw [List.foldl_cons]
    have hstep : (skFuzzyStep knowledge st m).1 = st.1 ∨
        ∃ d, (skFuzzyStep knowledge st m).1 = st.1 ++ [(m, d, qOf 3 5)] := by
      unfold skFuzzyStep
      by_cases h1 : m ∈ st.2
      · rw [if_pos h1]
        exact Or.inl rfl
      · rw [if_neg h1]
        cases knowledge.lookup m with
        | some d => exact Or.inr ⟨d, rfl⟩
        | none => exact Or.inl rfl
    rcases hstep with he | ⟨d, he⟩
    · exact ⟨t, by rw [ht, he], hs⟩
    · refine ⟨(m, d, qOf 3 5) :: t, ?_, ?_⟩
      · rw [ht, he, List.append_assoc]
        rfl
      · intro r hr
        rcases List.mem_cons.mp hr with rfl | hr'
        · rfl
        · exact hs r hr'

/-- C1, the part that holds (amended claim): in app.py's
`search_knowledge`, whenever the normalized query is a stored key, the
result list starts with that exact-match row at score 1.0, and everything
after it scores strictly below 1.0 (substring rows 0.8, fuzzy rows 0.6). -/
theorem search_knowledge_exact_first (query : String)
    (knowledge : List (String × Entry)) (e : Entry)
    (h : knowledge.lookup (normalize_term query) = some e) :
    (search_knowledge query knowledge).head? =
      some (normalize_term query, e, qOf 1 1) ∧
    ∀ r ∈ (search_knowledge query knowledge).tail,
      qLt r.2.2 (qOf 1 1) = true := by
  have hex : skExact (normalize_term query) knowledge =
      ([(normalize_term query, e, qOf 1 1)], [normalize_term query]) := by
    unfold skExact
    rw [h]
  obtain ⟨t1, ht1, hs1⟩ := skPartial_fold_shape (normalize_term query)
    knowledge (skExact (normalize_term query) knowledge)
  obtain ⟨t2, ht2, hs2⟩ := skFuzzy_fold_shape knowledge
    (getCloseMatches (normalize_term query)
      (knowledge.map (fun p => p.1)) 3 (qOf 3 5))
    (knowledge.foldl (skPartialStep (normalize_term query))
      (skExact (normalize_term query) knowledge))
  have hrows : ((getCloseMatches (normalize_term query)
      (knowledge.map (fun p => p.1)) 3 (qOf 3 5)).foldl
      (skFuzzyStep knowledge)
      (knowledge.foldl (skPartialStep (normalize_term query))
        (skExact (normalize_term query) knowledge))).1 =
      (normalize_term query, e, qOf 1 1) :: (t1 ++ t2) := by
    rw [ht2, ht1, hex, List.append_assoc]
    rfl
  have htail : ∀ r ∈ t1 ++ t2, qLt r.2.2 (qOf 1 1) = true := by
    intro r hr
    rcases List.mem_append.mp hr with hr1 | hr2
    · rw [hs1 r hr1]
      decide
    · rw [hs2 r hr2]
      decide
  have hsorted : stableSortDesc (scGe (fun r : String × Entry × Q => r.2.2))
      ((normalize_term query, e, qOf 1 1) :: (t1 ++ t2)) =
      (normalize_term query, e, qOf 1 1) ::
        stableSortDesc (scGe (fun r : String × Entry × Q => r.2.2)) (t1 ++ t2) :=
    stableSortDesc_cons_max _ _ _ htail
  constructor
  · unfold search_knowledge
    rw [hrows, hsorted]
    rfl
  · intro r hr
    unfold search_knowledge at hr
    rw [hrows, hsorted] at hr
    have hr2 : r ∈ stableSortDesc (scGe (fun r : String × Entry × Q => r.2.2))
        (t1 ++ t2) := by
      have := (List.take_sublist 4 _).subset hr
      exact this
    exact htail r ((stableSortDesc_perm _ _).mem_iff.mp hr2)

/-- Witness for the amended C1 at a concrete store. -/
theorem search_knowledge_exact_first_witness :
    (List.lookup (normalize_term "Abc ") [("abc", entry0)] = some entry0) ∧
    (search_knowledge "Abc " [("abc", entry0)]).head? =
      some ("abc", entry0, qOf 1 1) :=
  ⟨by decide,
   (search_knowledge_exact_first "Abc " [("abc", entry0)] entry0 (by decide)).1⟩

theorem mem_dedup_not_seen {lim : Nat} :
    ∀ {rows : List Row} {seen : List String} {cnt : Nat} {r : Row},
      r ∈ dedupTakeAux lim seen cnt rows → r.term ∉ seen := by
  intro rows
  induction rows with
  | nil => intro seen cnt r hr; exact absurd hr (by simp [dedupTakeAux])
  | cons x rs ih =>
    intro seen cnt r hr
    unfold dedupTakeAux at hr
    by_cases hx : x.term ∈ seen
    · rw [if_pos hx] at hr
      exact ih hr
    · rw [if_neg hx] at hr
      rcases List.mem_cons.mp hr with rfl | hr'
      · exact hx
      · by_cases hstop : lim ≤ cnt + 1
        · rw [if_pos hstop] at hr'
          exact absurd hr' (by simp)
        · rw [if_neg hstop] at hr'
          have := ih hr'
          intro hc
          exact this (List.mem_cons_of_mem _ hc)

theorem mem_dedup_find {lim : Nat} :
    ∀ {rows : List Row} {seen : List String} {cnt : Nat} {r : Row},
      r ∈ dedupTakeAux lim seen cnt rows →
        rows.find? (fun x => decide (x.term = r.term)) = some r := by
  intro rows
  induction rows with
  | nil => intro seen cnt r hr; exact absurd hr (by simp [dedupTakeAux])
  | cons x rs ih =>
    intro seen cnt r hr
    have hnotseen := mem_dedup_not_seen hr
    unfold dedupTakeAux at hr
    by_cases hx : x.term ∈ seen
    · rw [if_pos hx] at hr
      have hne : x.term ≠ r.term := by
        intro he
        exact hnotseen (he ▸ hx)
      rw [List.find?_cons, decide_eq_false hne]
      exact ih hr
    · rw [if_neg hx] at hr
      rcases List.mem_cons.mp hr with rfl | hr'
      · rw [List.find?_cons, decide_eq_true rfl]
      · by_cases hstop : lim ≤ cnt + 1
        · rw [if_pos hstop] at hr'
          exact absurd hr' (by simp)
        · rw [if_neg hstop] at hr'
          have hne : x.term ≠ r.term := by
            intro he
            exact (mem_dedup_not_seen hr') (he ▸ List.mem_cons_self _ _)
          rw [List.find?_cons, decide_eq_false hne]
          exact ih hr'

theorem mem_manualRowsA_src {q : String} {dkb : List (String × Entry)}
    {r : Row} (hr : r ∈ manualRowsA q dkb) : r.src = "manual" := by
  unfold manualRowsA at hr
  by_cases hd : dkb = []
  · rw [if_pos hd] at hr
    exact absurd hr (by simp)
  · rw [if_neg hd] at hr
    obtain ⟨p, _, rfl⟩ := List.mem_map.mp hr
    rfl

/-- C2 amended: every row `search_term` returns carries the highest score
that its term attains in any partition's results, and when a manual-
partition row ties that score for the term, the kept row is the MANUAL
one (the manual block precedes the channel blocks and the stable sort
preserves the order of ties) — not the channel one as claimed. -/
theorem search_term_dedup_pref (q : String) (dkb : List (String × Entry))
    (chans : List (Int × List (String × Entry))) (r : Row)
    (hr : r ∈ search_term q dkb chans) :
    (∀ y ∈ allRowsA q dkb chans, y.term = r.term →
      qLe y.score r.score = true) ∧
    (∀ m ∈ manualRowsA q dkb, m.term = r.term → m.score.Eqv r.score →
      r.src = "manual") := by
  have hfind : (stableSortDesc (scGe (fun x : Row => x.score))
      (allRowsA q dkb chans)).find? (fun x => decide (x.term = r.term)) =
      some r := mem_dedup_find hr
  have hmaxeq := sort_find?_max (fun x : Row => x.score)
    (fun x => decide (x.term = r.term)) (allRowsA q dkb chans)
  rw [hfind] at hmaxeq
  have hpred := List.find?_some hmaxeq.symm
  rw [Bool.and_eq_true] at hpred
  have hmax : ∀ y ∈ allRowsA q dkb chans, y.term = r.term →
      qLe y.score r.score = true := by
    intro y hy hyt
    have h2 := of_decide_eq_true hpred.2
    exact h2 y hy (decide_eq_true hyt)
  refine ⟨hmax, ?_⟩
  intro m hm hmt hmeq
  have hmaxeq' : some r = (allRowsA q dkb chans).find?
      (maxTermPred (allRowsA q dkb chans) r.term) := hmaxeq
  have hmpred : maxTermPred (allRowsA q dkb chans) r.term m = true := by
    unfold maxTermPred
    rw [Bool.and_eq_true]
    refine ⟨decide_eq_true hmt, decide_eq_true ?_⟩
    intro y hy hyt
    exact qLe_of_eqv_right (qEqv_symm hmeq)
      (hmax y hy (of_decide_eq_true hyt))
  have hsome : ((manualRowsA q dkb).find?
      (maxTermPred (allRowsA q dkb chans) r.term)).isSome = true :=
    List.find?_isSome.mpr ⟨m, hm, hmpred⟩
  cases hfm : (manualRowsA q dkb).find?
      (maxTermPred (allRowsA q dkb chans) r.term) with
  | none => rw [hfm] at hsome; exact absurd hsome (by simp)
  | some m' =>
    have key : (allRowsA q dkb chans).find?
        (maxTermPred (allRowsA q dkb chans) r.term) =
        ((manualRowsA q dkb).find?
          (maxTermPred (allRowsA q dkb chans) r.term)).or
        ((channelRowsA q chans).find?
          (maxTermPred (allRowsA q dkb chans) r.term)) :=
      List.find?_append
    rw [key, hfm] at hmaxeq'
    have hrm : r = m' := Option.some_inj.mp (by simpa using hmaxeq')
    rw [hrm]
    exact mem_manualRowsA_src (List.mem_of_find?_eq_some hfm)

/-- C2 counterexample: the key "ab" is stored both manually and in channel
5; both sides score 1.0 (an exact tie), and `search_term` keeps the MANUAL
occurrence, dropping the channel one — the claim says the channel-sourced
occurrence is preferred. -/
theorem search_term_tie_keeps_manual :
    allRowsA "ab" [("ab", entry0)] [((5 : Int), [("ab", entryChan)])] =
      [⟨"ab", entry0, qOf 1 1, "manual", 0⟩,
        ⟨"ab", entryChan, qOf 1 1, "chan", 5⟩] ∧
    search_term "ab" [("ab", entry0)] [((5 : Int), [("ab", entryChan)])] =
      [⟨"ab", entry0, qOf 1 1, "manual", 0⟩] := by
  decide

/-- Witness for the amended C2 at a concrete tie. -/
theorem search_term_dedup_pref_witness :
    ((⟨"ab", entry0, qOf 1 1, "manual", 0⟩ : Row) ∈
      search_term "ab" [("ab", entry0)] [((6 : Int), [("ab", entryChan)])]) ∧
    qLe (⟨"ab", entryChan, qOf 1 1, "chan", 6⟩ : Row).score
      (⟨"ab", entry0, qOf 1 1, "manual", 0⟩ : Row).score = true ∧
    (⟨"ab", entry0, qOf 1 1, "manual", 0⟩ : Row).src = "manual" :=
  ⟨by decide,
   (search_term_dedup_pref "ab" [("ab", entry0)]
      [((6 : Int), [("ab", entryChan)])] _ (by decide)).1
      ⟨"ab", entryChan, qOf 1 1, "chan", 6⟩ (by decide) (by decide),
   (search_term_dedup_pref "ab" [("ab", entry0)]
      [((6 : Int), [("ab", entryChan)])] _ (by decide)).2
      ⟨"ab", entry0, qOf 1 1, "manual", 0⟩ (by decide) (by decide) (qEqv_refl _)⟩

/-- C1 counterexample: in study_bot.py's `smart_search` the stored key "e"
is an exact match for the query "e", yet the entry "x", whose seven
keywords all match, scores 0.7 + 7*0.05 = 1.05 > 1.0 and is ranked first;
the exact-match entry is neither first nor the unique top scorer. -/
theorem smart_search_exact_not_first :
    (List.lookup "e" [("x", entryKw), ("e", entry0)] = some entry0) ∧
    normalize_term "e" = "e" ∧
    smart_search "e" [("x", entryKw), ("e", entry0)] =
      [("x", entryKw, qAdd (qOf 7 10) (qMul (qOf 7 1) (qOf 1 20))),
        ("e", entry0, qOf 1 1)] ∧
    qLt (qOf 1 1) (qAdd (qOf 7 10) (qMul (qOf 7 1) (qOf 1 20))) = true := by
  decide

/-- C4: the code is wrong on its own docstring.  With
`preserve_code=True` on `"hello `code` world."`, the inline span is
swapped for `__INLINECODE0__`, but the escape pass then escapes the
placeholder's underscores, so the restore `replace("__INLINECODE0__", ...)`
finds nothing: the reply keeps the escaped placeholder and the code span
`` `code` `` is gone entirely, instead of being preserved verbatim. -/
theorem escape_markdown_loses_code_spans :
    escape_markdown "hello `code` world." true =
      "hello \\_\\_INLINECODE0\\_\\_ world\\." ∧
    strIn "`code`" (escape_markdown "hello `code` world." true) = false ∧
    strIn "`code`" "hello `code` world." = true := by
  decide

theorem lowerCh_not_upper (c : Char) :
    ¬ (65 ≤ (lowerCh c).toNat ∧ (lowerCh c).toNat ≤ 90) := by
  by_cases h : 65 ≤ c.toNat ∧ c.toNat ≤ 90
  · rw [lowerCh_of_upper h]
    omega
  · have hc : lowerCh c = c := by unfold lowerCh; rw [if_neg h]
    rw [hc]
    exact h

theorem kwFold_mem (ws : List (List Char)) :
    ∀ (acc : List String), ∀ x ∈ ws.foldl kwStep acc, x ∈ acc ∨
      (3 < x.length ∧ x ∉ common_words ∧
        ∀ c ∈ x.data, ¬ (65 ≤ c.toNat ∧ c.toNat ≤ 90)) := by
  induction ws with
  | nil => intro acc x hx; exact Or.inl hx
  | cons w ws ih =>
    intro acc x hx
    rw [List.foldl_cons] at hx
    rcases ih (kwStep acc w) x hx with hacc | hprops
    · unfold kwStep at hacc
      by_cases hcond : (⟨w.map lowerCh⟩ : String) ∉ common_words ∧ 3 < w.length
      · rw [if_pos hcond] at hacc
        rcases List.mem_append.mp hacc with h1 | h2
        · exact Or.inl h1
        · have hx2 : x = (⟨w.map lowerCh⟩ : String) := by
            rcases List.mem_cons.mp h2 with h | h
            · exact h
            · exact absurd h (by simp)
          refine Or.inr ⟨?_, ?_, ?_⟩
          · rw [hx2]
            show 3 < (w.map lowerCh).length
            rw [List.length_map]
            exact hcond.2
          · rw [hx2]
            exact hcond.1
          · intro c hc
            rw [hx2] at hc
            obtain ⟨c', _, rfl⟩ := List.mem_map.mp hc
            exact lowerCh_not_upper c'
      · rw [if_neg hcond] at hacc
        exact Or.inl hacc
    · exact Or.inr hprops

theorem mem_dedupeFirst_not_seen :
    ∀ {l : List String} {seen : List String} {k : String},
      k ∈ dedupeFirst seen l → k ∉ seen := by
  intro l
  induction l with
  | nil => intro seen k hk; exact absurd hk (by simp [dedupeFirst])
  | cons x xs ih =>
    intro seen k hk
    unfold dedupeFirst at hk
    by_cases hx : x ∈ seen
    · rw [if_pos hx] at hk
      exact ih hk
    · rw [if_neg hx] at hk
      rcases List.mem_cons.mp hk with rfl | hk'
      · exact hx
      · intro hc
        exact (ih hk') (List.mem_cons_of_mem _ hc)

theorem mem_dedupeFirst_subset :
    ∀ {l : List String} {seen : List String} {k : String},
      k ∈ dedupeFirst seen l → k ∈ l := by
  intro l
  induction l with
  | nil => intro seen k hk; exact absurd hk (by simp [dedupeFirst])
  | cons x xs ih =>
    intro seen k hk
    unfold dedupeFirst at hk
    by_cases hx : x ∈ seen
    · rw [if_pos hx] at hk
      exact List.mem_cons_of_mem _ (ih hk)
    · rw [if_neg hx] at hk
      rcases List.mem_cons.mp hk with rfl | hk'
      · exact List.mem_cons_self _ _
      · exact List.mem_cons_of_mem _ (ih hk')

theorem dedupeFirst_nodup : ∀ (l seen : List String),
    (dedupeFirst seen l).Nodup := by
  intro l
  induction l with
  | nil => intro seen; exact List.nodup_nil
  | cons x xs ih =>
    intro seen
    unfold dedupeFirst
    by_cases hx : x ∈ seen
    · rw [if_pos hx]
      exact ih seen
    · rw [if_neg hx]
      refine List.nodup_cons.mpr ⟨?_, ih (x :: seen)⟩
      intro hc
      exact (mem_dedupeFirst_not_seen hc) (List.mem_cons_self _ _)

/-- C10: `extract_keywords` returns at most 15 keywords, pairwise
distinct, none in the stop list, each longer than three characters and
containing no uppercase ASCII letter. -/
theorem extract_keywords_props (text : String) :
    (extract_keywords text).length ≤ 15 ∧
    (extract_keywords text).Nodup ∧
    ∀ kw ∈ extract_keywords text,
      3 < kw.length ∧ kw ∉ common_words ∧
        ∀ c ∈ kw.data, ¬ (65 ≤ c.toNat ∧ c.toNat ≤ 90) := by
  refine ⟨List.length_take_le _ _, ?_, ?_⟩
  · exact (List.take_sublist _ _).nodup (dedupeFirst_nodup _ _)
  · intro kw hkw
    have h1 : kw ∈ dedupeFirst []
        ((kwScanAux text.data.length false text.data).foldl kwStep []) :=
      (List.take_sublist _ _).subset hkw
    have h2 := mem_dedupeFirst_subset h1
    rcases kwFold_mem _ [] kw h2 with habs | hprops
    · exact absurd habs (by simp)
    · exact hprops

/-- Witness for C10 at a concrete text. -/
theorem extract_keywords_props_witness :
    (extract_keywords "Neural Networks learn from the data").length ≤ 15 ∧
    (extract_keywords "Neural Networks learn from the data").Nodup ∧
    ("neural networks" ∈ extract_keywords "Neural Networks learn from the data" ∧
      3 < ("neural networks" : String).length ∧
      "neural networks" ∉ common_words) :=
  ⟨(extract_keywords_props "Neural Networks learn from the data").1,
   (extract_keywords_props "Neural Networks learn from the data").2.1,
   by decide,
   ((extract_keywords_props "Neural Networks learn from the data").2.2
      "neural networks" (by decide)).1,
   ((extract_keywords_props "Neural Networks learn from the data").2.2
      "neural networks" (by decide)).2.1⟩

end StudyBot

